import Mathlib

/-!
Verification development for the system-conf configuration engine
(package conf): document model, option type system, validation and
defaulting, drop-in merging, and the structural mapping engine.

Go maps have unspecified iteration order, so every function of the source
that ranges over a map is modelled with the iteration order passed in as an
explicit argument (a permutation of the canonically grouped entries);
theorems quantify over the order or exhibit concrete orders.

Go runtime panics (nil-pointer dereferences) are modelled by an explicit
result constructor.
-/

namespace SystemConf

/-- Go strings.ToLower on one character, restricted to the ASCII range
used throughout the package (section and option names). -/
def goLowerChar (c : Char) : Char :=
  if 65 ≤ c.toNat ∧ c.toNat ≤ 90 then Char.ofNat (c.toNat + 32) else c

/-- Go strings.ToLower. -/
def goLower (s : String) : String := String.mk (s.data.map goLowerChar)

/-! ### Association-list model of Go maps

Go map values are modelled as association lists keyed by strings; `aget`
is map indexing, `aset` is assignment (overwriting in place), `aerase` is
`delete`.  Iteration order is always passed explicitly by callers. -/

def aget {α : Type} (m : List (String × α)) (k : String) : Option α :=
  (m.find? (fun kv => kv.1 == k)).map (·.2)

def aset {α : Type} (m : List (String × α)) (k : String) (v : α) : List (String × α) :=
  match m with
  | [] => [(k, v)]
  | kv :: rest => if kv.1 == k then (k, v) :: rest else kv :: aset rest k v

def aerase {α : Type} (m : List (String × α)) (k : String) : List (String × α) :=
  m.filter (fun kv => kv.1 ≠ k)

/-! ### Errors (errors.go)

Categorical error kinds; `Wrapped` models `fmt.Errorf("%s: %w", ctx, err)`
chains by recording the contextual names next to the base kind. -/

inductive ConfErr where
  | optionRequired
  | optionAllowedOnce
  | optionNotExists
  | invalidBoolean
  | invalidFloat
  | invalidNumber
  | invalidDuration
  | noSections
  | unknownSection
  | dropInSectionNotExists
  | dropInSectionNotAllowed
  | noOptions
  | optionNotSet
deriving DecidableEq, Repr

structure Wrapped where
  ctx : List String
  base : ConfErr
deriving DecidableEq, Repr

def wrapErr (name : String) (e : Wrapped) : Wrapped :=
  { e with ctx := name :: e.ctx }

def baseErr (b : ConfErr) : Wrapped := ⟨[], b⟩

/-- Result of running a Go function that may return an error or hit a
runtime panic (nil-pointer dereference). -/
inductive GoExc (α : Type) where
  | ok (a : α)
  | err (e : Wrapped)
  | panicked
deriving DecidableEq, Repr

/-! ### Document model

`ConfOption`, `Section`, `File` mirror the Option/Section/File structs of
the package (the struct declarations themselves are in a file of the
repository not present under src/, but their shape is fixed by every use
site and by the spec's data model). -/

structure ConfOption where
  name : String
  value : String
deriving DecidableEq, Repr

abbrev Options := List ConfOption

structure Section where
  name : String
  options : Options := []
deriving DecidableEq, Repr

structure File where
  path : String := ""
  sections : List Section := []
deriving DecidableEq, Repr

/-- Sections.GetAll (sections.go): all sections with the given name,
compared case-insensitively, in document order. -/
def Sections.getAll (ss : List Section) (name : String) : List Section :=
  ss.filter (fun s => goLower s.name == goLower name)

/-- File.GetAll delegates to Sections.GetAll on the file's sections. -/
def File.getAll (f : File) (name : String) : List Section :=
  Sections.getAll f.sections name

/-- Modelled from the spec: Options.GetStringSlice (the Options methods
live in a file of the repository missing from src/). Returns the values of
all options matching the name case-insensitively, in order. -/
def Options.getStringSlice (opts : Options) (name : String) : List String :=
  (opts.filter (fun o => goLower o.name == goLower name)).map (·.value)

/-- Modelled from the spec: Options.GetString. Exactly one value is
required: zero values yield ErrOptionNotSet, more than one value yields
ErrOptionAllowedOnce. -/
def Options.getString (opts : Options) (name : String) : Except ConfErr String :=
  match Options.getStringSlice opts name with
  | [] => .error .optionNotSet
  | [v] => .ok v
  | _ => .error .optionAllowedOnce

/-- Modelled from the spec: Options.GetRequiredStringSlice. Like
GetStringSlice but ErrOptionNotSet when no value is present. -/
def Options.getRequiredStringSlice (opts : Options) (name : String) :
    Except ConfErr (List String) :=
  match Options.getStringSlice opts name with
  | [] => .error .optionNotSet
  | vs => .ok vs

/-- Section.GetStringSlice delegates to the options. -/
def Section.getStringSlice (s : Section) (name : String) : List String :=
  Options.getStringSlice s.options name

/-! ### Option type system (the variant with duration types) -/

inductive OptionType where
  | stringT
  | stringSliceT
  | boolT
  | intT
  | intSliceT
  | floatT
  | floatSliceT
  | durationT
  | durationSliceT
deriving DecidableEq, Repr

def OptionType.isSliceType : OptionType → Bool
  | .stringSliceT => true
  | .intSliceT => true
  | .floatSliceT => true
  | .durationSliceT => true
  | _ => false

/-- OptionSpec: static description of a legal option. Purely informational
fields (Description, Aliases, Internal, Annotations) play no role in any
function modelled here and are omitted. -/
structure OptionSpec where
  name : String
  type : OptionType := .stringT
  required : Bool := false
  default : String := ""
deriving DecidableEq, Repr

/-- SectionSpec (section_spec.go): ordered list of option specs. -/
abbrev SectionSpec := List OptionSpec

/-- SectionSpec.GetOption: first spec whose lowercased name equals optName
(optName is already lowercase at every call site). -/
def SectionSpec.getOption (specs : SectionSpec) (optName : String) : Option OptionSpec :=
  specs.find? (fun o => goLower o.name == optName)

/-- The OptionRegistry interface (registry.go): GetOption and All. -/
structure OptionRegistry where
  getOption : String → Option OptionSpec
  all : List OptionSpec

/-- SectionSpec implements OptionRegistry. -/
def SectionSpec.toRegistry (specs : SectionSpec) : OptionRegistry :=
  { getOption := SectionSpec.getOption specs, all := specs }

/-- The SectionRegistry interface (registry.go). `OptionsForSection`
returns a Go interface value and a bool; a found-but-nil interface is
distinct from not-found, hence the nested options: `none` is ok=false,
`some none` is a nil OptionRegistry interface with ok=true. -/
structure SectionRegistry where
  optionsForSection : String → Option (Option OptionRegistry)

/-- FileSpec: map from section name to OptionRegistry (possibly a nil
interface value, as in the package's own tests). -/
abbrev FileSpec := List (String × Option OptionRegistry)

/-- FileSpec.OptionsForSection: exact lookup of the lowercased key first,
then a scan comparing lowercased map keys (scan order models one map
iteration order). -/
def FileSpec.optionsForSection (spec : FileSpec) (name : String) :
    Option (Option OptionRegistry) :=
  let key := goLower name
  match aget spec key with
  | some v => some v
  | none => (spec.find? (fun kv => goLower kv.1 == key)).map (·.2)

def FileSpec.toSectionRegistry (spec : FileSpec) : SectionRegistry :=
  ⟨FileSpec.optionsForSection spec⟩

/-! ### Models of the Go standard-library functions the package calls -/

/-- Modelled from the spec: ConvertBool (its file is missing from src/).
Accepts a fixed case-insensitive set of truthy and falsy tokens; anything
else is an invalid boolean. -/
def ConvertBool (s : String) : Option Bool :=
  match goLower s with
  | "yes" => some true
  | "true" => some true
  | "1" => some true
  | "on" => some true
  | "no" => some false
  | "false" => some false
  | "0" => some false
  | "off" => some false
  | _ => none

/-- strconv.FormatBool. -/
def goFormatBool (b : Bool) : String := if b then "true" else "false"

def digitChar (n : Nat) : Char := Char.ofNat (48 + n)

def digitVal (c : Char) : Option Nat :=
  if '0' ≤ c ∧ c ≤ '9' then some (c.toNat - 48)
  else if 'a' ≤ c ∧ c ≤ 'z' then some (c.toNat - 87)
  else if 'A' ≤ c ∧ c ≤ 'Z' then some (c.toNat - 55)
  else none

def parseDigitsAux (base : Nat) : Nat → List Char → Option Nat
  | acc, [] => some acc
  | acc, c :: cs =>
    match digitVal c with
    | some d => if d < base then parseDigitsAux base (acc * base + d) cs else none
    | none => none

def parseDigits (base : Nat) (l : List Char) : Option Nat :=
  if l = [] then none else parseDigitsAux base 0 l

def natCharsAux : Nat → Nat → List Char
  | 0, _ => []
  | fuel + 1, n =>
    if n < 10 then [digitChar n]
    else natCharsAux fuel (n / 10) ++ [digitChar (n % 10)]

/-- Decimal digit string of a natural number, most significant first
(fmt %d / strconv formatting); the fuel only drives structural recursion
and is always sufficient. -/
def natChars (n : Nat) : List Char := natCharsAux (n + 1) n

/-- fmt.Sprintf("%d", x) for a signed integer. -/
def goFormatInt (i : Int) : String :=
  if i < 0 then String.mk ('-' :: natChars i.natAbs) else String.mk (natChars i.natAbs)

def int64Min : Int := -(2 ^ 63)
def int64Max : Int := 2 ^ 63 - 1

/-- Base detection of strconv.ParseInt with base argument 0: prefixes
0x/0X, 0b/0B, 0o/0O, a bare leading zero meaning octal, else decimal. -/
def stripBase0 : List Char → Nat × List Char
  | '0' :: 'x' :: rest => (16, rest)
  | '0' :: 'X' :: rest => (16, rest)
  | '0' :: 'b' :: rest => (2, rest)
  | '0' :: 'B' :: rest => (2, rest)
  | '0' :: 'o' :: rest => (8, rest)
  | '0' :: 'O' :: rest => (8, rest)
  | '0' :: c :: rest => (8, c :: rest)
  | l => (10, l)

/-- The sign handling of strconv.ParseInt. -/
def splitSign : List Char → Bool × List Char
  | '-' :: r => (true, r)
  | '+' :: r => (false, r)
  | l => (false, l)

/-- Combine the parsed magnitude with the sign and apply the 64-bit range
check of strconv.ParseInt. -/
def composeParsed (neg : Bool) (md : Option Nat) : Option Int :=
  match md with
  | none => none
  | some m =>
    let v : Int := if neg then -(m : Int) else (m : Int)
    if v < int64Min ∨ v > int64Max then none else some v

def parseGoIntChars (l : List Char) : Option Int :=
  composeParsed (splitSign l).1
    (parseDigits (stripBase0 (splitSign l).2).1 (stripBase0 (splitSign l).2).2)

/-- strconv.ParseInt(s, 0, 64): sign, base-prefix detection, digits, and
the 64-bit range check. Underscore digit separators (accepted by Go when
the base argument is 0) are not modelled; no input in this development
contains one. -/
def parseGoInt (s : String) : Option Int := parseGoIntChars s.data

/-- strconv.ParseFloat(s, 64), validity only: optional sign, decimal
digits with optional fraction and exponent, or inf/infinity/nan
(case-insensitive). Hexadecimal floats, underscore separators and the
overflow path are not modelled; no claim depends on float validation. -/
def parseFloatOk (s : String) : Bool :=
  let w := (goLower s).data
  let l := match w with
    | '+' :: r => r
    | '-' :: r => r
    | r => r
  if l = ['i', 'n', 'f'] ∨ l = ['i', 'n', 'f', 'i', 'n', 'i', 't', 'y'] ∨
      l = ['n', 'a', 'n'] then true
  else
    let p1 := l.span (·.isDigit)
    let p2 : List Char × List Char :=
      match p1.2 with
      | '.' :: r => r.span (·.isDigit)
      | r => ([], r)
    if p1.1 = [] ∧ p2.1 = [] then false
    else
      match p2.2 with
      | [] => true
      | 'e' :: r =>
        let r1 := match r with
          | '+' :: q => q
          | '-' :: q => q
          | q => q
        r1 ≠ [] ∧ r1.all (·.isDigit)
      | _ => false

/-- strings.TrimRight(s, "0"): strip trailing zero characters. -/
def trimRightZeros (s : String) : String :=
  String.mk ((s.data.reverse.dropWhile (fun c => c == '0')).reverse)

/-- fmt.Sprintf("%f", x) on the modelled float value: the float64 is
modelled by the exact rational it denotes, and the default %f rendering
rounds it to six fractional digits (ties to even, as fmt rounds the
modelled value) and prints sign, integer part and the six digits. -/
def sprintfF (q : ℚ) : String :=
  let den := q.den
  let scaled := q.num.natAbs * 1000000
  let n6 := scaled / den
  let rem := scaled % den
  let rounded :=
    if den < 2 * rem then n6 + 1
    else if 2 * rem < den then n6
    else if n6 % 2 = 1 then n6 + 1 else n6
  let intPart := rounded / 1000000
  let frac := rounded % 1000000
  let fracChars := natChars frac
  let sign : List Char := if q.num < 0 then ['-'] else []
  String.mk (sign ++ natChars intPart ++ '.' ::
    (List.replicate (6 - fracChars.length) '0' ++ fracChars))

/-- The float rendering of encodeBasic (encode_utils.go):
strings.TrimRight(fmt.Sprintf("%f", x), "0"). -/
def goFormatFloat (q : ℚ) : String := trimRightZeros (sprintfF q)

/-- strconv.ParseFloat(s, 64) on plain decimal syntax, as the exact
rational value of the text: optional sign, digits with optional fraction,
optional decimal exponent. Hexadecimal floats, underscore separators,
inf/nan (no rational denotation) and the rounding to binary are not
modelled. -/
def parseGoFloat (s : String) : Option ℚ :=
  let sl : Int × List Char :=
    match s.data with
    | '+' :: r => (1, r)
    | '-' :: r => (-1, r)
    | r => (1, r)
  let p1 := sl.2.span (·.isDigit)
  let p2 : List Char × List Char :=
    match p1.2 with
    | '.' :: r => r.span (·.isDigit)
    | r => ([], r)
  if p1.1 = [] ∧ p2.1 = [] then none
  else
    let eres : Option Int :=
      match p2.2 with
      | [] => some 0
      | c :: r =>
        if c = 'e' ∨ c = 'E' then
          let es : Int × List Char :=
            match r with
            | '+' :: r2 => (1, r2)
            | '-' :: r2 => (-1, r2)
            | r2 => (1, r2)
          match parseDigits 10 es.2 with
          | some n => some (es.1 * n)
          | none => none
        else none
    match eres, parseDigits 10 (p1.1 ++ p2.1) with
    | some e, some m =>
      let sexp : Int := e - p2.1.length
      if 0 ≤ sexp then some (mkRat (sl.1 * m * ((10 : Int) ^ sexp.toNat)) 1)
      else some (mkRat (sl.1 * m) (10 ^ (-sexp).toNat))
    | _, _ => none

/-- One duration unit of time.ParseDuration (longest match first). -/
def durUnit : List Char → Option (List Char)
  | 'n' :: 's' :: r => some r
  | 'u' :: 's' :: r => some r
  | 'µ' :: 's' :: r => some r
  | 'μ' :: 's' :: r => some r
  | 'm' :: 's' :: r => some r
  | 's' :: r => some r
  | 'm' :: r => some r
  | 'h' :: r => some r
  | _ => none

/-- One number+unit component: digits with optional fraction (at least one
digit), then a unit. -/
def durComp (l : List Char) : Option (List Char) :=
  let p1 := l.span (·.isDigit)
  let p2 : List Char × List Char :=
    match p1.2 with
    | '.' :: r => r.span (·.isDigit)
    | r => ([], r)
  if p1.1 = [] ∧ p2.1 = [] then none else durUnit p2.2

def durCompsFuel : Nat → List Char → Bool
  | _, [] => true
  | 0, _ => false
  | fuel + 1, l =>
    match durComp l with
    | some r => durCompsFuel fuel r
    | none => false

/-- time.ParseDuration, validity only: optional sign, then one or more
number+unit components; "0" alone is valid. Overflow detection is not
modelled; no claim depends on duration validation. -/
def parseDurationOk (s : String) : Bool :=
  let l := match s.data with
    | '+' :: r => r
    | '-' :: r => r
    | r => r
  if l = ['0'] then true
  else if l = [] then false
  else durCompsFuel l.length l

/-- strings.TrimSuffix. -/
def trimSuffixGo (s suffix : String) : String :=
  if suffix.data.isSuffixOf s.data then
    String.mk (s.data.take (s.data.length - suffix.data.length))
  else s

/-- strings.TrimLeft with an explicit cutset. -/
def trimLeftGo (s : String) (cutset : List Char) : String :=
  String.mk (s.data.dropWhile (fun c => cutset.contains c))

/-- strings.SplitAfter for a one-character separator (the package only
splits after "-"). -/
def splitAfterChar (ch : Char) : List Char → List (List Char)
  | [] => [[]]
  | c :: rest =>
    let r := splitAfterChar ch rest
    if c = ch then [c] :: r
    else
      match r with
      | [] => [[c]]
      | h :: t => (c :: h) :: t

def splitAfterGo (s : String) (ch : Char) : List String :=
  (splitAfterChar ch s.data).map String.mk

/-- strings.Split for a one-character separator (the package only splits
on "/" and ","). -/
def splitChar (ch : Char) : List Char → List (List Char)
  | [] => [[]]
  | c :: rest =>
    let r := splitChar ch rest
    if c = ch then [] :: r
    else
      match r with
      | [] => [[c]]
      | h :: t => (c :: h) :: t

def splitOnGo (s : String) (ch : Char) : List String :=
  (splitChar ch s.data).map String.mk

def joinSep (sep : String) : List String → String
  | [] => ""
  | [x] => x
  | x :: xs => x ++ sep ++ joinSep sep xs

/-- filepath.Ext: the suffix beginning at the final dot of the final path
element; empty when there is no dot. -/
def extRev : List Char → List Char → Option String
  | [], _ => none
  | '/' :: _, _ => none
  | '.' :: _, acc => some (String.mk ('.' :: acc))
  | c :: rest, acc => extRev rest (c :: acc)

def filepathExt (p : String) : String :=
  match extRev p.data.reverse [] with
  | some e => e
  | none => ""

/-- filepath.Clean for slash-separated paths: drop empty and "."
components, resolve ".." against the stack, keep rootedness. -/
def pathClean (p : String) : String :=
  if p = "" then "."
  else
    let rooted := p.data.head? = some '/'
    let comps := (splitOnGo p '/').filter (fun c => ¬(c = "" ∨ c = "."))
    let stack := comps.foldl (fun acc c =>
      if c = ".." then
        match acc.getLast? with
        | some x => if x = ".." then acc ++ [c] else acc.dropLast
        | none => if rooted then acc else acc ++ [c]
      else acc ++ [c]) ([] : List String)
    let body := joinSep "/" stack
    if rooted then "/" ++ body
    else if body = "" then "." else body

/-- filepath.Join of two elements: empty elements are ignored, the result
is Cleaned. -/
def filepathJoin (a b : String) : String :=
  if a = "" then (if b = "" then "" else pathClean b)
  else if b = "" then pathClean a
  else pathClean (a ++ "/" ++ b)

/-! ### Drop-in search paths (utils.go, DropInSearchPaths) -/

def DropInSearchPaths (unitName rootDir : String) : List String :=
  let ext := filepathExt unitName
  let name := trimSuffixGo unitName ext
  let paths1 : List String :=
    if ext.length > 1 then [filepathJoin rootDir (trimLeftGo ext ['.'] ++ ".d")]
    else []
  let parts := splitAfterGo name '-'
  let paths2 := (List.range (parts.length - 1)).map
    (fun idx => filepathJoin rootDir (String.join (parts.take (idx + 1)) ++ ext ++ ".d"))
  paths1 ++ paths2 ++ [filepathJoin rootDir (unitName ++ ".d")]

/-! ### Validation and defaulting engine (spec.go) -/

/-- checkValue: per-type validation of one raw value. -/
def checkValue (val : String) (optType : OptionType) : Option ConfErr :=
  match optType with
  | .boolT =>
    match ConvertBool val with
    | some _ => none
    | none => some .invalidBoolean
  | .stringSliceT => none
  | .stringT => none
  | .floatSliceT => if parseFloatOk val then none else some .invalidFloat
  | .floatT => if parseFloatOk val then none else some .invalidFloat
  | .intSliceT =>
    match parseGoInt val with
    | some _ => none
    | none => some .invalidNumber
  | .intT =>
    match parseGoInt val with
    | some _ => none
    | none => some .invalidNumber
  | .durationT => if parseDurationOk val then none else some .invalidDuration
  | .durationSliceT => if parseDurationOk val then none else some .invalidDuration

/-- The value loop of ValidateOption: required options may not carry an
empty value, and every value must pass checkValue. -/
def validateValues (spec : OptionSpec) : List String → Option ConfErr
  | [] => none
  | v :: vs =>
    if spec.required ∧ v = "" then some .optionRequired
    else
      match checkValue v spec.type with
      | some e => some e
      | none => validateValues spec vs

/-- ValidateOption (spec.go). -/
def ValidateOption (values : List String) (spec : OptionSpec) : Option ConfErr :=
  if values.length > 1 ∧ ¬spec.type.isSliceType then some .optionAllowedOnce
  else if spec.required ∧ values.length = 0 then some .optionRequired
  else validateValues spec values

/-- The grouping map `gv` of ValidateOptions: values grouped by lowercased
option name; groups in first-occurrence order, values in document order
(only the map's iteration order is unspecified in Go, not its content). -/
def gvStep (acc : List (String × List String)) (o : ConfOption) :
    List (String × List String) :=
  match aget acc (goLower o.name) with
  | some vs => aset acc (goLower o.name) (vs ++ [o.value])
  | none => acc ++ [(goLower o.name, [o.value])]

def gvGroups (options : Options) : List (String × List String) :=
  options.foldl gvStep []

/-- The spec lookup map `lm` of ValidateOptions: lowercased name to spec,
later specs overwriting earlier ones. -/
def buildLM (specs : List OptionSpec) : List (String × OptionSpec) :=
  specs.foldl (fun lm spec => aset lm (goLower spec.name) spec) []

/-- The validation loop of ValidateOptions over the grouped options, taken
in the iteration order supplied by the caller; returns the remaining
lookup map on success. -/
def validateGroupsGo :
    List (String × OptionSpec) → List (String × List String) →
      Except Wrapped (List (String × OptionSpec))
  | lm, [] => .ok lm
  | lm, (name, values) :: rest =>
    match aget lm (goLower name) with
    | none => .error ⟨[name], .optionNotExists⟩
    | some spec =>
      match ValidateOption values spec with
      | some e => .error ⟨[spec.name], e⟩
      | none => validateGroupsGo (aerase lm name) rest

/-- ValidateOptions (spec.go) with both Go map iteration orders passed
explicitly: `gOrd` is the iteration of the grouped options, `rOrd` the
iteration of the remaining lookup map in the final required check. -/
def ValidateOptionsW (reg : OptionRegistry) (gOrd : List (String × List String))
    (rOrd : List (String × OptionSpec)) : Option Wrapped :=
  match validateGroupsGo (buildLM reg.all) gOrd with
  | .error e => some e
  | .ok _ =>
    (rOrd.find? (fun kv => kv.2.required)).map (fun kv => ⟨[kv.2.name], .optionRequired⟩)

/-- The remaining lookup map after the validation loop: every spec whose
lowercased name was not among the grouped option names. -/
def remainingLM (options : Options) (reg : OptionRegistry) :
    List (String × OptionSpec) :=
  (buildLM reg.all).filter (fun kv => ¬(gvGroups options).any (fun g => g.1 = kv.1))

/-- ValidateOptions run with one particular (insertion-order) map
iteration order. -/
def ValidateOptionsCanon (options : Options) (reg : OptionRegistry) : Option Wrapped :=
  ValidateOptionsW reg (gvGroups options) (remainingLM options reg)

/-- ApplyDefaults (spec.go): append the default value of every non-required
spec with a default whose name has no value yet. -/
def applyDefaultsStep (opts : Options) (spec : OptionSpec) : Options :=
  if spec.required then opts
  else if spec.default = "" then opts
  else
    let notSet :=
      if spec.type.isSliceType then
        match Options.getRequiredStringSlice opts spec.name with
        | .error .optionNotSet => true
        | _ => false
      else
        match Options.getString opts spec.name with
        | .error .optionNotSet => true
        | _ => false
    if notSet then opts ++ [⟨spec.name, spec.default⟩] else opts

def ApplyDefaults (options : Options) (reg : OptionRegistry) : Options :=
  reg.all.foldl applyDefaultsStep options

/-! ### Drop-in merge engine (utils.go) -/

/-- The per-section lookup map `olm` of mergeSections: the drop-in
section's options grouped by lowercased name, in first-occurrence order. -/
def groupByName (opts : Options) : List (String × Options) :=
  opts.foldl (fun acc o =>
    let ln := goLower o.name
    match aget acc ln with
    | some l => aset acc ln (l ++ [o])
    | none => acc ++ [(ln, [o])]) []

/-- The section lookup map `slm` of ApplyDropIns: lowercased section name
to the (unique) section, or to nil for a name defined multiple times. -/
abbrev Slm := List (String × Option Section)

def buildSLMStep (m : Slm) (sec : Section) : Slm :=
  match aget m (goLower sec.name) with
  | some _ => aset m (goLower sec.name) none
  | none => aset m (goLower sec.name) (some sec)

def buildSLM (sections : List Section) : Slm :=
  sections.foldl buildSLMStep []

/-- The option-update loop of mergeSections, processing the grouped
drop-in options in the supplied iteration order against the target
section pointer (`none` models a nil *Section; dereferencing it is a
panic). -/
def mergeGroups (reg : OptionRegistry) :
    Option Section → List (String × Options) → GoExc (Option Section)
  | s, [] => .ok s
  | s, (optName, opts) :: rest =>
    let optLowerName := goLower optName
    match reg.getOption optLowerName with
    | none => .err ⟨[optName], .optionNotExists⟩
    | some optSpec =>
      if ¬optSpec.type.isSliceType then
        match s with
        | none => .panicked
        | some sec =>
          let newOpts := sec.options.filter (fun o => goLower o.name ≠ optLowerName)
          mergeGroups reg (some { sec with options := newOpts ++ opts }) rest
      else
        match opts with
        | [] => .panicked
        | o0 :: _ =>
          if o0.value = "" then
            match s with
            | none => .panicked
            | some sec =>
              let newOpts := sec.options.filter (fun o => goLower o.name ≠ optLowerName)
              mergeGroups reg (some { sec with options := newOpts ++ opts.drop 1 }) rest
          else
            match s with
            | none => .panicked
            | some sec => mergeGroups reg (some { sec with options := sec.options ++ opts }) rest

/-- mergeSections (utils.go): nil-registry check, then the grouped option
updates. -/
def mergeSections (optReg : Option OptionRegistry) (s : Option Section)
    (order : List (String × Options)) : GoExc (Option Section) :=
  match optReg with
  | none => .err (baseErr .noOptions)
  | some reg => mergeGroups reg s order

/-- Supplies the iteration order for the next mergeSections call: the next
caller-provided order if any, else first-occurrence order. -/
def popOrder (orders : List (List (String × Options))) (g : List (String × Options)) :
    List (String × Options) × List (List (String × Options)) :=
  match orders with
  | [] => (g, [])
  | o :: rest => (o, rest)

/-- The inner loop of ApplyDropIns over one drop-in's sections. -/
def applyDropInSecs (secReg : SectionRegistry) :
    Slm → List (List (String × Options)) → List Section →
      GoExc (Slm × List (List (String × Options)))
  | slm, orders, [] => .ok (slm, orders)
  | slm, orders, dropInSec :: rest =>
    let sn := goLower dropInSec.name
    match aget slm sn with
    | none => .err ⟨[sn], .dropInSectionNotExists⟩
    | some s =>
      match secReg.optionsForSection sn with
      | none => .err ⟨[sn], .dropInSectionNotAllowed⟩
      | some none => .err ⟨[sn], .dropInSectionNotAllowed⟩
      | some (some reg) =>
        let po := popOrder orders (groupByName dropInSec.options)
        match mergeSections (some reg) s po.1 with
        | .panicked => .panicked
        | .err e => .err (wrapErr sn e)
        | .ok s' => applyDropInSecs secReg (aset slm sn s') po.2 rest

def applyDropInsAux (secReg : SectionRegistry) :
    Slm → List (List (String × Options)) → List File → GoExc Slm
  | slm, _, [] => .ok slm
  | slm, orders, d :: ds =>
    match applyDropInSecs secReg slm orders d.sections with
    | .panicked => .panicked
    | .err e => .err e
    | .ok (slm', orders') => applyDropInsAux secReg slm' orders' ds

/-- ApplyDropIns (utils.go). A drop-in is a File; `orders` supplies the Go
map iteration order used by each successive mergeSections call. -/
def ApplyDropIns (orders : List (List (String × Options))) (t : File)
    (dropins : List File) (secReg : SectionRegistry) : GoExc File :=
  match applyDropInsAux secReg (buildSLM t.sections) orders dropins with
  | .panicked => .panicked
  | .err e => .err e
  | .ok slm =>
    .ok { t with sections := t.sections.map (fun sec =>
      match aget slm (goLower sec.name) with
      | some (some s') => s'
      | _ => sec) }

/-! ### Structural mapping engine (encode_utils.go and the decoder)

The reflection universe is modelled by explicit descriptors: a struct is a
list of section fields, each holding a record (a list of option fields of
bool, int, string, []int or []string kind).  Pointer indirection, embedded
anonymous records, float record fields and the SectionUnmarshaler hook are
outside this universe; no claim depends on them.  Scalar float values and
float slices are modelled in GoValue for the single-option encode/decode
path, with float64 idealised as the exact rational it denotes. -/

inductive GoValue where
  | vBool (b : Bool)
  | vInt (n : Int)
  | vString (s : String)
  | vFloat (q : ℚ)
  | vIntSlice (l : List Int)
  | vStringSlice (l : List String)
  | vFloatSlice (l : List ℚ)
deriving DecidableEq, Repr

/-- reflect.Value.IsZero on the modelled universe (a nil slice is zero; an
empty non-nil slice also encodes to no options, so both map to `[]`). -/
def GoValue.isZero : GoValue → Bool
  | .vBool b => b = false
  | .vInt n => n = 0
  | .vString s => s = ""
  | .vFloat q => q = 0
  | .vIntSlice l => l = []
  | .vStringSlice l => l = []
  | .vFloatSlice l => l = []

def GoValue.zeroLike : GoValue → GoValue
  | .vBool _ => .vBool false
  | .vInt _ => .vInt 0
  | .vString _ => .vString ""
  | .vFloat _ => .vFloat 0
  | .vIntSlice _ => .vIntSlice []
  | .vStringSlice _ => .vStringSlice []
  | .vFloatSlice _ => .vFloatSlice []

/-- encodeBasic (encode_utils.go): zero values are skipped unless
includeZeroValues; slices recurse on each element with includeZeroValues
set, which on a scalar element always emits exactly one option — the
recursion is unfolded here. -/
def encodeBasic (v : GoValue) (name : String) (includeZeroValues : Bool) : Options :=
  if ¬includeZeroValues ∧ v.isZero then []
  else
    match v with
    | .vBool b => [⟨name, goFormatBool b⟩]
    | .vInt n => [⟨name, goFormatInt n⟩]
    | .vString s => [⟨name, s⟩]
    | .vFloat q => [⟨name, goFormatFloat q⟩]
    | .vIntSlice l => l.map (fun n => ⟨name, goFormatInt n⟩)
    | .vStringSlice l => l.map (fun s => ⟨name, s⟩)
    | .vFloatSlice l => l.map (fun q => ⟨name, goFormatFloat q⟩)

/-- EncodeToOptions (encode_utils.go). -/
def EncodeToOptions (name : String) (v : GoValue) : Options :=
  encodeBasic v name false

/-! #### Decoding single options (the decode family) -/

inductive DErr where
  | valueCount (n : Nat)
  | typeMismatch
  | parseFailure
  | sliceTypeMismatch
  | indexPanic
  | noSpecification (name : String)
  | missingSection (name : String)
  | sectionCount (n : Nat)
  | inSection (name : String) (e : DErr)
  | inField (name : String) (e : DErr)
deriving DecidableEq, Repr

/-- The per-element loop of decodeSlice for an int element type; elements
of the current value beyond the data are retained. -/
def decodeIntList (t : OptionType) : List String → List Int → Except DErr (List Int)
  | [], cur => .ok cur
  | d :: ds, cur =>
    if t = .intT ∨ t = .intSliceT then
      match parseGoInt d with
      | some n => (decodeIntList t ds (cur.drop 1)).map (fun rest => n :: rest)
      | none => .error .parseFailure
    else .error .typeMismatch

/-- The per-element loop of decodeSlice for a string element type. -/
def decodeStringList (t : OptionType) : List String → List String → Except DErr (List String)
  | [], cur => .ok cur
  | d :: ds, cur =>
    if t = .stringT ∨ t = .stringSliceT then
      (decodeStringList t ds (cur.drop 1)).map (fun rest => d :: rest)
    else .error .typeMismatch

/-- The per-element loop of decodeSlice for a float element type. -/
def decodeFloatList (t : OptionType) : List String → List ℚ → Except DErr (List ℚ)
  | [], cur => .ok cur
  | d :: ds, cur =>
    if t = .floatT ∨ t = .floatSliceT then
      match parseGoFloat d with
      | some q => (decodeFloatList t ds (cur.drop 1)).map (fun rest => q :: rest)
      | none => .error .parseFailure
    else .error .typeMismatch

/-- decode (the decoder file): the value-count guard for non-slice option
types, then kind dispatch into decodeBool/decodeInt/decodeString or
decodeSlice.  `recv` is the receiver; its constructor is the reflect kind
and its payload the current value. -/
def decodeVal (data : List String) (t : OptionType) (recv : GoValue) :
    Except DErr GoValue :=
  if ¬t.isSliceType ∧ data.length ≠ 1 then .error (.valueCount data.length)
  else
    match recv with
    | .vBool _ =>
      match data with
      | [] => .error .indexPanic
      | d :: _ =>
        if t = .boolT then
          match ConvertBool d with
          | some b => .ok (.vBool b)
          | none => .error .parseFailure
        else .error .typeMismatch
    | .vInt _ =>
      match data with
      | [] => .error .indexPanic
      | d :: _ =>
        if t = .intT ∨ t = .intSliceT then
          match parseGoInt d with
          | some n => .ok (.vInt n)
          | none => .error .parseFailure
        else .error .typeMismatch
    | .vString _ =>
      match data with
      | [] => .error .indexPanic
      | d :: _ =>
        if t = .stringT ∨ t = .stringSliceT then .ok (.vString d)
        else .error .typeMismatch
    | .vFloat _ =>
      match data with
      | [] => .error .indexPanic
      | d :: _ =>
        if t = .floatT ∨ t = .floatSliceT then
          match parseGoFloat d with
          | some q => .ok (.vFloat q)
          | none => .error .parseFailure
        else .error .typeMismatch
    | .vIntSlice cur =>
      if ¬t.isSliceType then .error .sliceTypeMismatch
      else (decodeIntList t data cur).map .vIntSlice
    | .vStringSlice cur =>
      if ¬t.isSliceType then .error .sliceTypeMismatch
      else (decodeStringList t data cur).map .vStringSlice
    | .vFloatSlice cur =>
      if ¬t.isSliceType then .error .sliceTypeMismatch
      else (decodeFloatList t data cur).map .vFloatSlice

/-- DecodeValues (the decoder file): single-option convenience decode. -/
def DecodeValues (data : List String) (t : OptionType) (recv : GoValue) :
    Except DErr GoValue :=
  decodeVal data t recv

/-! #### Struct and record descriptors -/

inductive GoKind where
  | kBool
  | kInt
  | kString
  | kIntSlice
  | kStringSlice
deriving DecidableEq, Repr

def GoKind.zero : GoKind → GoValue
  | .kBool => .vBool false
  | .kInt => .vInt 0
  | .kString => .vString ""
  | .kIntSlice => .vIntSlice []
  | .kStringSlice => .vStringSlice []

structure OptField where
  goName : String
  tag : Option String := none
  kind : GoKind
deriving DecidableEq, Repr

abbrev RecordDesc := List OptField
abbrev RecordVal := List GoValue

structure SecField where
  goName : String
  tag : Option String := none
  isSlice : Bool := false
  record : RecordDesc
deriving DecidableEq, Repr

abbrev StructDesc := List SecField

inductive FieldVal where
  | single (r : RecordVal)
  | many (rs : List RecordVal)
deriving DecidableEq, Repr

abbrev StructVal := List FieldVal

/-- Go's exported-field check: first rune uppercase. -/
def isExported (s : String) : Bool :=
  match s.data with
  | [] => false
  | c :: _ => c.isUpper

/-- The section-tag handling shared by decodeFileToStruct and encodeFile:
a non-empty first comma-part overrides the name, "-" skips the field, and
"required" among the remaining parts marks it required (the encoder
ignores that flag). -/
def sectionTagInfo (goName : String) (tag : Option String) : Option (String × Bool) :=
  match tag with
  | none => some (goName, false)
  | some tv =>
    let parts := splitOnGo tv ','
    let name :=
      match parts with
      | p0 :: _ => if p0 ≠ "" then p0 else goName
      | [] => goName
    if name = "-" then none
    else some (name, (parts.drop 1).contains "required")

/-- Option-tag handling of the decoder: the whole tag value is the name
(no comma splitting); "-" skips, an empty tag keeps the field name. -/
def decOptionName (goName : String) (tag : Option String) : Option String :=
  match tag with
  | none => some goName
  | some tv =>
    if tv = "" then some goName
    else if tv = "-" then none
    else some tv

/-- Option-tag handling of the encoder (encodeSection): the first
comma-part overrides the name, "-" skips. -/
def encOptionName (goName : String) (tag : Option String) : Option String :=
  match tag with
  | none => some goName
  | some tv =>
    let parts := splitOnGo tv ','
    let name :=
      match parts with
      | p0 :: _ => if p0 ≠ "" then p0 else goName
      | [] => goName
    if name = "-" then none else some name

/-! #### Encoding structs (encode_utils.go) -/

/-- The field loop of encodeSection: each exported, non-skipped field
contributes its encodeBasic options. -/
def encodeRecordOpts (rdesc : RecordDesc) (r : RecordVal) : Options :=
  (rdesc.zip r).flatMap (fun fv =>
    if ¬isExported fv.1.goName then []
    else
      match encOptionName fv.1.goName fv.1.tag with
      | none => []
      | some name => encodeBasic fv.2 name false)

/-- encodeSection on one record in non-inline mode: a section is appended
only when at least one option was encoded. -/
def encodeSectionGo (name : String) (rdesc : RecordDesc) (r : RecordVal) :
    List Section :=
  let opts := encodeRecordOpts rdesc r
  if opts.length > 0 then [⟨name, opts⟩] else []

/-- One struct field of encodeFile: slice fields encode one section per
element, single fields one section; unexported or "-"-tagged fields encode
nothing. -/
def encodeSecField (f : SecField) (v : FieldVal) : List Section :=
  if ¬isExported f.goName then []
  else
    match sectionTagInfo f.goName f.tag with
    | none => []
    | some (name, _) =>
      match v with
      | .single r => encodeSectionGo name f.record r
      | .many rs => rs.flatMap (encodeSectionGo name f.record)

/-- ConvertToFile (encode_utils.go) on the modelled universe. -/
def ConvertToFile (desc : StructDesc) (vals : StructVal) (path : String) : File :=
  ⟨path, (desc.zip vals).flatMap (fun p => encodeSecField p.1 p.2)⟩

/-! #### Decoding structs (the decoder) -/

def zeroRecord (rdesc : RecordDesc) : RecordVal :=
  rdesc.map (fun f => f.kind.zero)

def zeroFieldVal (f : SecField) : FieldVal :=
  if f.isSlice then .many [] else .single (zeroRecord f.record)

/-- Modelled from the spec: SectionSpec.FindOption is not under src/; it
is the case-insensitive option-spec lookup (the older decoder in
conf/utils.go inlines exactly this loop). -/
def findOption (specs : SectionSpec) (name : String) : Option OptionSpec :=
  specs.find? (fun o => goLower o.name == goLower name)

/-- The field loop of decodeSectionToStruct: unexported, "-"-tagged and
unknown fields are skipped (lenient mode); absent non-required options are
skipped; everything else decodes through decodeVal. -/
def decodeRecFields (sec : Section) (specs : SectionSpec) :
    List OptField → List GoValue → Except DErr (List GoValue)
  | [], _ => .ok []
  | _ :: _, [] => .ok []
  | fd :: fds, v :: vs =>
    if ¬isExported fd.goName then
      (decodeRecFields sec specs fds vs).map (fun rest => v :: rest)
    else
      match decOptionName fd.goName fd.tag with
      | none => (decodeRecFields sec specs fds vs).map (fun rest => v :: rest)
      | some name =>
        match findOption specs name with
        | none => (decodeRecFields sec specs fds vs).map (fun rest => v :: rest)
        | some ospec =>
          let values := Section.getStringSlice sec ospec.name
          if values = [] ∧ ¬ospec.required then
            (decodeRecFields sec specs fds vs).map (fun rest => v :: rest)
          else
            match decodeVal values ospec.type v with
            | .error e => .error (.inField fd.goName e)
            | .ok v' => (decodeRecFields sec specs fds vs).map (fun rest => v' :: rest)

def decodeSectionToStruct (sec : Section) (specs : SectionSpec)
    (rdesc : RecordDesc) (cur : RecordVal) : Except DErr RecordVal :=
  decodeRecFields sec specs rdesc cur

/-- The sequential decode-and-append loop shared by decodeSections and
decodeFileToStruct: one output per input, the first error aborts. -/
def decodeEach {α β : Type} (g : α → Except DErr β) : List α → Except DErr (List β)
  | [] => .ok []
  | a :: as =>
    match g a with
    | .error e => .error e
    | .ok b =>
      match decodeEach g as with
      | .error e => .error e
      | .ok bs => .ok (b :: bs)

/-- decodeSections on a non-empty section list: slice targets decode one
record per section (each grown from a zero element), single targets
require exactly one section. -/
def decodeSectionsGo (sections : List Section) (specs : SectionSpec) (f : SecField) :
    Except DErr FieldVal :=
  if f.isSlice then
    (decodeEach (fun s => decodeSectionToStruct s specs f.record (zeroRecord f.record))
      sections).map .many
  else
    match sections with
    | [s] => (decodeSectionToStruct s specs f.record (zeroRecord f.record)).map .single
    | _ => .error (.sectionCount sections.length)

/-- Modelled from the spec: FileSpec.FindSection is not under src/; it is
the case-insensitive section-spec lookup of the registry. -/
abbrev FileSpecD := List (String × SectionSpec)

def findSection (spec : FileSpecD) (name : String) : Option SectionSpec :=
  match aget spec (goLower name) with
  | some s => some s
  | none => (spec.find? (fun kv => goLower kv.1 == goLower name)).map (·.2)

/-- One struct field of decodeFileToStruct: resolve the section name and
spec, collect the matching sections in document order, fail when a
required section is absent, else decode them. -/
def decodeSecField (file : File) (spec : FileSpecD) (f : SecField) :
    Except DErr FieldVal :=
  match sectionTagInfo f.goName f.tag with
  | none => .ok (zeroFieldVal f)
  | some (name, required) =>
    match findSection spec name with
    | none => .error (.noSpecification name)
    | some secSpec =>
      let sections := File.getAll file name
      if sections.length = 0 then
        if required then .error (.missingSection name) else .ok (zeroFieldVal f)
      else
        match decodeSectionsGo sections secSpec f with
        | .error e => .error (.inSection name e)
        | .ok v => .ok v

/-- decodeFileToStruct (the decoder): fields are decoded in declaration
order, the first error aborts. -/
def DecodeFileToStruct (file : File) (spec : FileSpecD) (desc : StructDesc) :
    Except DErr StructVal :=
  decodeEach (decodeSecField file spec) desc

/-! ### Concrete instances from the package's own test scenarios -/

def testSpecs : SectionSpec :=
  [⟨"Single", .stringT, false, ""⟩,
   ⟨"Slice1", .stringSliceT, false, ""⟩,
   ⟨"Slice2", .stringSliceT, false, ""⟩]

def testReg : OptionRegistry := testSpecs.toRegistry

def testFS : FileSpec := [("test", some testReg)]

def testSecReg : SectionRegistry := testFS.toSectionRegistry

def c1Base : File :=
  ⟨"", [⟨"Test", [⟨"Single", "TSK"⟩, ⟨"Slice1", "TSK"⟩]⟩]⟩

def c1D1 : File :=
  ⟨"", [⟨"Test", [⟨"Single", "d1"⟩, ⟨"Slice2", "d1"⟩, ⟨"Slice2", "d1"⟩, ⟨"Slice1", "d1"⟩]⟩]⟩

def c1D2 : File :=
  ⟨"", [⟨"Test", [⟨"Slice1", ""⟩, ⟨"Slice1", "d2"⟩]⟩]⟩

/-- The option list the claim expects after merging. -/
def c1MergedOpts : Options :=
  [⟨"Single", "d1"⟩, ⟨"Slice2", "d1"⟩, ⟨"Slice2", "d1"⟩, ⟨"Slice1", "d2"⟩]

def c1Merged : File := ⟨"", [⟨"Test", c1MergedOpts⟩]⟩

/-- The grouped option map of d1's Test section, in first-occurrence
order. -/
def c1G1 : List (String × Options) :=
  groupByName [⟨"Single", "d1"⟩, ⟨"Slice2", "d1"⟩, ⟨"Slice2", "d1"⟩, ⟨"Slice1", "d1"⟩]

/-- The grouped option map of d2's Test section. -/
def c1G2 : List (String × Options) :=
  groupByName [⟨"Slice1", ""⟩, ⟨"Slice1", "d2"⟩]

/-- A base file defining the Test section twice. -/
def c2Base : File := ⟨"", [⟨"Test", []⟩, ⟨"Test", []⟩]⟩

/-- A drop-in targeting Test with one registered option. -/
def c2DropIn : File := ⟨"", [⟨"Test", [⟨"Single", "x"⟩]⟩]⟩

/-- A drop-in targeting Test with no options at all. -/
def c2DropInEmpty : File := ⟨"", [⟨"Test", []⟩]⟩

/-! ### Claim theorems -/

/-- C8: DropInSearchPaths on unit name "foo-bar-baz.task" and root
directory "/lib/" returns exactly the four directories task.d, foo-.task.d,
foo-bar-.task.d and foo-bar-baz.task.d under /lib, lowest priority
first. -/
theorem dropInSearchPaths_foo_bar_baz :
    DropInSearchPaths "foo-bar-baz.task" "/lib/" =
      ["/lib/task.d", "/lib/foo-.task.d", "/lib/foo-bar-.task.d",
       "/lib/foo-bar-baz.task.d"] := by
  decide

/-- C2 (code bug): on a base file defining section Test twice and a
registry that does define the test section, ApplyDropIns does not fail
with ErrDropInSectionNotAllowed as claimed: a drop-in carrying a
registered option for the duplicated section drives a nil *Section into
mergeSections and panics, and a drop-in with an empty Test section merges
silently and successfully. -/
theorem applyDropIns_duplicate_section_bug :
    ApplyDropIns [] c2Base [c2DropIn] testSecReg = .panicked ∧
    ApplyDropIns [] c2Base [c2DropInEmpty] testSecReg = .ok c2Base := by
  constructor
  · decide
  · decide

/-- Every option-producing value of a record is zero-valued. -/
def RecordAllZero (r : RecordVal) : Prop := ∀ v ∈ r, v.isZero = true

def FieldAllZero : FieldVal → Prop
  | .single r => RecordAllZero r
  | .many rs => ∀ r ∈ rs, RecordAllZero r

theorem encodeBasic_zero (v : GoValue) (name : String) (h : v.isZero = true) :
    encodeBasic v name false = [] := by
  unfold encodeBasic
  simp [h]

theorem encodeRecordOpts_zero (rdesc : RecordDesc) (r : RecordVal)
    (h : RecordAllZero r) : encodeRecordOpts rdesc r = [] := by
  unfold encodeRecordOpts
  induction rdesc generalizing r with
  | nil => simp
  | cons fd fds ih =>
    cases r with
    | nil => simp
    | cons v vs =>
      have hv : v.isZero = true := h v (by simp)
      have hvs : RecordAllZero vs := fun x hx => h x (by simp [hx])
      simp only [List.zip_cons_cons, List.flatMap_cons]
      rw [ih vs hvs]
      by_cases hexp : isExported fd.goName
      · simp only [hexp]
        cases encOptionName fd.goName fd.tag with
        | none => simp
        | some name => simp [encodeBasic_zero v name hv]
      · simp [hexp]

theorem encodeSectionGo_zero (name : String) (rdesc : RecordDesc) (r : RecordVal)
    (h : RecordAllZero r) : encodeSectionGo name rdesc r = [] := by
  unfold encodeSectionGo
  rw [encodeRecordOpts_zero rdesc r h]
  simp

theorem flatMap_encodeSectionGo_zero (name : String) (rdesc : RecordDesc)
    (rs : List RecordVal) (h : ∀ r ∈ rs, RecordAllZero r) :
    rs.flatMap (encodeSectionGo name rdesc) = [] := by
  induction rs with
  | nil => simp
  | cons r rest ih =>
    simp only [List.flatMap_cons]
    rw [encodeSectionGo_zero name rdesc r (h r (by simp)),
      ih (fun x hx => h x (by simp [hx]))]
    rfl

theorem encodeSecField_zero (f : SecField) (v : FieldVal) (h : FieldAllZero v) :
    encodeSecField f v = [] := by
  unfold encodeSecField
  by_cases he : isExported f.goName
  · simp only [he]
    cases hti : sectionTagInfo f.goName f.tag with
    | none => simp
    | some nb =>
      cases v with
      | single r => simpa using encodeSectionGo_zero nb.1 f.record r h
      | many rs => simpa using flatMap_encodeSectionGo_zero nb.1 f.record rs h
  · simp [he]

/-- C10: in the default sparse-encoding mode ConvertToFile never emits an
empty section: a struct field all of whose option-producing values are
zero contributes no section at all, and the output file is exactly the
concatenation of the per-field sections. -/
theorem convertToFile_no_empty_sections :
    ∀ (desc : StructDesc) (vals : StructVal) (path : String) (i : Nat)
      (f : SecField) (v : FieldVal),
      (desc.zip vals).get? i = some (f, v) → FieldAllZero v →
      encodeSecField f v = [] ∧
      (ConvertToFile desc vals path).sections =
        (desc.zip vals).flatMap (fun p => encodeSecField p.1 p.2) := by
  intro desc vals path i f v _hget hz
  exact ⟨encodeSecField_zero f v hz, rfl⟩

def c1GS : String × Options := ("single", [⟨"Single", "d1"⟩])
def c1GT : String × Options := ("slice2", [⟨"Slice2", "d1"⟩, ⟨"Slice2", "d1"⟩])
def c1GU : String × Options := ("slice1", [⟨"Slice1", "d1"⟩])

/-- C1 (counterexample): processing d1's grouped options in the reversed
map iteration order is a legal run of ApplyDropIns, and it leaves the
section with the options in the order Slice2, Slice2, Single, Slice1 —
not the order the claim states. -/
theorem applyDropIns_c1_order_counterexample :
    (c1G1.reverse).Perm c1G1 ∧
    ApplyDropIns [c1G1.reverse] c1Base [c1D1, c1D2] testSecReg =
      .ok ⟨"", [⟨"Test", [⟨"Slice2", "d1"⟩, ⟨"Slice2", "d1"⟩, ⟨"Single", "d1"⟩,
        ⟨"Slice1", "d2"⟩]⟩]⟩ ∧
    (⟨"", [⟨"Test", [⟨"Slice2", "d1"⟩, ⟨"Slice2", "d1"⟩, ⟨"Single", "d1"⟩,
      ⟨"Slice1", "d2"⟩]⟩]⟩ : File) ≠ c1Merged := by
  refine ⟨by decide, by decide, by decide⟩

/-- C1 (amended): under the insertion-order iteration the merge produces
exactly the claimed section, and under every legal map iteration order the
merge succeeds and leaves the Test section with exactly the claimed four
options up to reordering, with Slice1=d2 always appended last. -/
theorem applyDropIns_c1_merge :
    ApplyDropIns [] c1Base [c1D1, c1D2] testSecReg = .ok c1Merged ∧
    ∀ (o1 o2 : List (String × Options)), o1.Perm c1G1 → o2.Perm c1G2 →
      ∃ opts : Options,
        ApplyDropIns [o1, o2] c1Base [c1D1, c1D2] testSecReg =
          .ok ⟨"", [⟨"Test", opts⟩]⟩ ∧
        opts.Perm c1MergedOpts ∧ opts.getLast? = some ⟨"Slice1", "d2"⟩ := by
  constructor
  · decide
  · intro o1 o2 h1 h2
    have eg2 : c1G2 = [("slice1", [⟨"Slice1", ""⟩, ⟨"Slice1", "d2"⟩])] := by decide
    rw [eg2] at h2
    have e2 := List.perm_singleton.mp h2
    subst e2
    have eg1 : c1G1 = [c1GS, c1GT, c1GU] := by decide
    rw [eg1] at h1
    have hlen : o1.length = 3 := by simpa using h1.length_eq
    obtain ⟨x, y, z, rfl⟩ := List.length_eq_three.mp hlen
    have hx : x ∈ [c1GS, c1GT, c1GU] := h1.subset (by simp)
    have hy : y ∈ [c1GS, c1GT, c1GU] := h1.subset (by simp)
    have hz : z ∈ [c1GS, c1GT, c1GU] := h1.subset (by simp)
    simp only [List.mem_cons, List.not_mem_nil, or_false] at hx hy hz
    rcases hx with rfl | rfl | rfl <;> rcases hy with rfl | rfl | rfl <;>
      rcases hz with rfl | rfl | rfl <;>
      first
        | exact absurd h1 (by decide)
        | exact ⟨_, rfl, by decide, by decide⟩

/-- Witness for C1's amended theorem at the insertion-order iteration. -/
theorem applyDropIns_c1_merge_witness :
    ∃ opts : Options,
      ApplyDropIns [c1G1, c1G2] c1Base [c1D1, c1D2] testSecReg =
        .ok ⟨"", [⟨"Test", opts⟩]⟩ ∧
      opts.Perm c1MergedOpts ∧ opts.getLast? = some ⟨"Slice1", "d2"⟩ :=
  applyDropIns_c1_merge.2 c1G1 c1G2 (List.Perm.refl c1G1) (List.Perm.refl c1G2)

/-- Witness for C10 at a concrete all-zero record field. -/
theorem convertToFile_no_empty_sections_witness :
    encodeSecField ⟨"Empty", none, false, [⟨"A", none, .kString⟩, ⟨"B", none, .kInt⟩]⟩
        (.single [.vString "", .vInt 0]) = [] ∧
    (ConvertToFile [⟨"Empty", none, false, [⟨"A", none, .kString⟩, ⟨"B", none, .kInt⟩]⟩]
        [.single [.vString "", .vInt 0]] "p").sections =
      ([⟨"Empty", none, false, [⟨"A", none, .kString⟩, ⟨"B", none, .kInt⟩]⟩].zip
        [FieldVal.single [.vString "", .vInt 0]]).flatMap
          (fun p => encodeSecField p.1 p.2) :=
  convertToFile_no_empty_sections
    [⟨"Empty", none, false, [⟨"A", none, .kString⟩, ⟨"B", none, .kInt⟩]⟩]
    [.single [.vString "", .vInt 0]] "p" 0
    ⟨"Empty", none, false, [⟨"A", none, .kString⟩, ⟨"B", none, .kInt⟩]⟩
    (.single [.vString "", .vInt 0]) (by decide)
    (by
      show RecordAllZero [GoValue.vString "", GoValue.vInt 0]
      unfold RecordAllZero
      decide)

def c6Reg : OptionRegistry := SectionSpec.toRegistry [⟨"Option1", .stringT, false, ""⟩]

def c6Opts1 : Options := [⟨"Option1", "value"⟩]

def c6Opts2 : Options := [⟨"Option1", "v1"⟩, ⟨"Option1", "v2"⟩]

/-- C6: ValidateOptions accepts a single value for a non-list string
option and rejects two values for it with ErrOptionAllowedOnce (whatever
map iteration order Go chooses), and in general ValidateOption yields
ErrOptionAllowedOnce for every non-list option spec given more than one
value. -/
theorem validateOptions_allowed_once :
    (∀ (gOrd : List (String × List String)) (rOrd : List (String × OptionSpec)),
      gOrd.Perm (gvGroups c6Opts1) → rOrd.Perm (remainingLM c6Opts1 c6Reg) →
      ValidateOptionsW c6Reg gOrd rOrd = none) ∧
    (∀ (gOrd : List (String × List String)) (rOrd : List (String × OptionSpec)),
      gOrd.Perm (gvGroups c6Opts2) →
      ValidateOptionsW c6Reg gOrd rOrd = some ⟨["Option1"], .optionAllowedOnce⟩) ∧
    (∀ (values : List String) (spec : OptionSpec),
      spec.type.isSliceType = false → 1 < values.length →
      ValidateOption values spec = some .optionAllowedOnce) := by
  refine ⟨?_, ?_, ?_⟩
  · intro gOrd rOrd hg hr
    rw [show gvGroups c6Opts1 = [("option1", ["value"])] from by decide] at hg
    rw [show remainingLM c6Opts1 c6Reg = [] from by decide] at hr
    rw [List.perm_singleton.mp hg, List.perm_nil.mp hr]
    decide
  · intro gOrd rOrd hg
    rw [show gvGroups c6Opts2 = [("option1", ["v1", "v2"])] from by decide] at hg
    rw [List.perm_singleton.mp hg]
    rfl
  · intro values spec h1 h2
    unfold ValidateOption
    rw [if_pos ⟨h2, by simp [h1]⟩]

/-- Witness for C6 at the package's own test inputs. -/
theorem validateOptions_allowed_once_witness :
    ValidateOptionsW c6Reg (gvGroups c6Opts1) (remainingLM c6Opts1 c6Reg) = none ∧
    ValidateOptionsW c6Reg (gvGroups c6Opts2) [] =
      some ⟨["Option1"], .optionAllowedOnce⟩ ∧
    ValidateOption ["v1", "v2"] ⟨"Option1", .stringT, false, ""⟩ =
      some .optionAllowedOnce :=
  ⟨validateOptions_allowed_once.1 _ _ (List.Perm.refl _) (List.Perm.refl _),
   validateOptions_allowed_once.2.1 _ [] (List.Perm.refl _),
   validateOptions_allowed_once.2.2 ["v1", "v2"] _ rfl (by decide)⟩

theorem getStringSlice_append (a b : Options) (n : String) :
    Options.getStringSlice (a ++ b) n =
      Options.getStringSlice a n ++ Options.getStringSlice b n := by
  simp [Options.getStringSlice, List.filter_append]

/-- The condition under which ApplyDefaults appends a synthetic option for
a spec, phrased against a fixed option list: not required, non-empty
default, and no value stored under the spec's name. -/
def adQual (opts : Options) (s : OptionSpec) : Bool :=
  !s.required && !(s.default == "") && (Options.getStringSlice opts s.name).isEmpty

theorem applyDefaultsStep_eq (opts : Options) (spec : OptionSpec) :
    applyDefaultsStep opts spec =
      if adQual opts spec then opts ++ [⟨spec.name, spec.default⟩] else opts := by
  unfold applyDefaultsStep adQual
  by_cases hreq : spec.required
  · simp [hreq]
  · by_cases hdef : spec.default = ""
    · simp [hreq, hdef]
    · simp only [hreq, hdef, if_false, Bool.not_false, Bool.true_and, if_true]
      rcases hg : Options.getStringSlice opts spec.name with _ | ⟨v, _ | ⟨w, rest⟩⟩ <;>
        by_cases hsl : spec.type.isSliceType <;>
          simp [Options.getString, Options.getRequiredStringSlice, hg, hsl, hdef, hreq]

theorem applyDefaults_foldl (specs : List OptionSpec) :
    ∀ cur : Options, (specs.map (fun s => goLower s.name)).Nodup →
      specs.foldl applyDefaultsStep cur =
        cur ++ (specs.filter (fun s => adQual cur s)).map
          (fun s => (⟨s.name, s.default⟩ : ConfOption)) := by
  induction specs with
  | nil => intro cur _; simp
  | cons sp rest ih =>
    intro cur hnd
    rw [List.map_cons, List.nodup_cons] at hnd
    obtain ⟨hnotin, hndr⟩ := hnd
    have hne : ∀ t ∈ rest, goLower sp.name ≠ goLower t.name := by
      intro t ht he
      exact hnotin (he ▸ List.mem_map_of_mem (fun s => goLower s.name) ht)
    rw [List.foldl_cons, applyDefaultsStep_eq]
    by_cases hq : adQual cur sp
    · rw [if_pos hq, ih (cur ++ [(⟨sp.name, sp.default⟩ : ConfOption)]) hndr]
      have hsame : ∀ t ∈ rest,
          adQual (cur ++ [⟨sp.name, sp.default⟩]) t = adQual cur t := by
        intro t ht
        unfold adQual
        rw [getStringSlice_append]
        have : Options.getStringSlice [⟨sp.name, sp.default⟩] t.name = [] := by
          simp [Options.getStringSlice, hne t ht]
        rw [this, List.append_nil]
      rw [List.filter_congr hsame, List.filter_cons_of_pos hq]
      simp
    · rw [if_neg hq, ih cur hndr, List.filter_cons_of_neg hq]

/-- C5 (amended): for every option list and every registry whose specs
carry pairwise distinct lowercased names, ApplyDefaults appends exactly
one synthetic option (the spec's name and default text) per spec that is
not required, has a non-empty default and has no value under its name in
the input options — in particular never for a required spec and never
when a value is present. -/
theorem applyDefaults_characterization :
    ∀ (options : Options) (reg : OptionRegistry),
      (reg.all.map (fun s => goLower s.name)).Nodup →
      ApplyDefaults options reg =
        options ++ (reg.all.filter (fun s => adQual options s)).map
          (fun s => (⟨s.name, s.default⟩ : ConfOption)) := by
  intro options reg hnd
  exact applyDefaults_foldl reg.all options hnd

/-- A registry declaring the same option name twice with a default. -/
def c5DupReg : OptionRegistry :=
  SectionSpec.toRegistry
    [⟨"A", .stringT, false, "x"⟩, ⟨"A", .stringT, false, "x"⟩]

/-- C5 (counterexample): with a registry listing the same spec twice, both
specs qualify against the empty input, yet ApplyDefaults appends only one
synthetic option, not one per qualifying spec as the claim states. -/
theorem applyDefaults_duplicate_spec_counterexample :
    ApplyDefaults [] c5DupReg = [⟨"A", "x"⟩] ∧
    ApplyDefaults [] c5DupReg ≠
      [] ++ (c5DupReg.all.filter (fun s => adQual [] s)).map
        (fun s => (⟨s.name, s.default⟩ : ConfOption)) := by
  exact ⟨by decide, by decide⟩

/-- Witness for C5's amended theorem at the package's own test case. -/
theorem applyDefaults_characterization_witness :
    ApplyDefaults [⟨"Key2", "something"⟩]
        (SectionSpec.toRegistry [⟨"test", .stringT, false, "some-value"⟩]) =
      [⟨"Key2", "something"⟩] ++
        ((SectionSpec.toRegistry
            [⟨"test", .stringT, false, "some-value"⟩]).all.filter
          (fun s => adQual [⟨"Key2", "something"⟩] s)).map
            (fun s => (⟨s.name, s.default⟩ : ConfOption)) :=
  applyDefaults_characterization [⟨"Key2", "something"⟩]
    (SectionSpec.toRegistry [⟨"test", .stringT, false, "some-value"⟩]) (by decide)

/-! ### Iteration-order independence of ValidateOptions (C4) -/

theorem goLowerChar_idem (c : Char) : goLowerChar (goLowerChar c) = goLowerChar c := by
  by_cases h : 65 ≤ c.toNat ∧ c.toNat ≤ 90
  · have e1 : goLowerChar c = Char.ofNat (c.toNat + 32) := by
      unfold goLowerChar; rw [if_pos h]
    have hv : (c.toNat + 32).isValidChar := by
      left; omega
    have ht : (Char.ofNat (c.toNat + 32)).toNat = c.toNat + 32 := by
      unfold Char.ofNat Char.ofNatAux
      rw [dif_pos hv]
      simp [Char.toNat, UInt32.toNat]
    rw [e1]
    unfold goLowerChar
    rw [if_neg (by rw [ht]; omega)]
  · have e1 : goLowerChar c = c := by unfold goLowerChar; rw [if_neg h]
    simp only [e1]

theorem goLower_idem (s : String) : goLower (goLower s) = goLower s := by
  unfold goLower
  simp only [List.map_map]
  exact congrArg _ (List.map_congr_left (fun c _ => goLowerChar_idem c))

theorem aget_cons {α : Type} (kv : String × α) (rest : List (String × α)) (k : String) :
    aget (kv :: rest) k = if kv.1 = k then some kv.2 else aget rest k := by
  unfold aget
  by_cases h : kv.1 = k <;> simp [List.find?_cons, h]

theorem aget_eq_none_iff {α : Type} (m : List (String × α)) (k : String) :
    aget m k = none ↔ k ∉ m.map Prod.fst := by
  induction m with
  | nil => simp [aget]
  | cons kv rest ih =>
    rw [aget_cons]
    by_cases h : kv.1 = k
    · simp [h]
    · simp [h, ih, Ne.symm h]

theorem aerase_cons {α : Type} (kv : String × α) (rest : List (String × α)) (k : String) :
    aerase (kv :: rest) k = if kv.1 = k then aerase rest k else kv :: aerase rest k := by
  unfold aerase
  by_cases h : kv.1 = k <;> simp [List.filter_cons, h]

theorem aget_aerase_ne {α : Type} (m : List (String × α)) (k k' : String)
    (h : k' ≠ k) : aget (aerase m k) k' = aget m k' := by
  induction m with
  | nil => rfl
  | cons kv rest ih =>
    rw [aerase_cons]
    by_cases hk : kv.1 = k
    · rw [if_pos hk, ih, aget_cons, if_neg (by rw [hk]; exact fun he => h he.symm)]
    · rw [if_neg hk, aget_cons, aget_cons, ih]

theorem mem_aset {α : Type} (m : List (String × α)) (k : String) (v : α)
    (g : String × α) (h : g ∈ aset m k v) : g ∈ m ∨ g = (k, v) := by
  induction m with
  | nil =>
    right
    have h2 : g ∈ [(k, v)] := h
    simpa using h2
  | cons kv rest ih =>
    unfold aset at h
    by_cases hk : kv.1 = k
    · rw [if_pos (by simp [hk])] at h
      rcases List.mem_cons.mp h with h | h
      · right; exact h
      · left; exact List.mem_cons_of_mem kv h
    · rw [if_neg (by simp [hk])] at h
      rcases List.mem_cons.mp h with h | h
      · left; exact h ▸ List.mem_cons_self kv rest
      · rcases ih h with h2 | h2
        · left; exact List.mem_cons_of_mem kv h2
        · right; exact h2

theorem aget_some_mem_keys {α : Type} (m : List (String × α)) (k : String)
    (h : aget m k ≠ none) : k ∈ m.map Prod.fst := by
  by_contra hc
  exact h ((aget_eq_none_iff m k).mpr hc)

theorem keys_aset_of_mem {α : Type} (m : List (String × α)) (k : String) (v : α)
    (h : k ∈ m.map Prod.fst) : (aset m k v).map Prod.fst = m.map Prod.fst := by
  induction m with
  | nil => simp at h
  | cons kv rest ih =>
    unfold aset
    by_cases hk : kv.1 = k
    · simp [hk]
    · simp only [List.map_cons] at h
      rcases List.mem_cons.mp h with h2 | h2
      · exact absurd h2.symm hk
      · simp [hk, ih h2]

theorem gvGroups_inv (P : String → Prop)
    (hP : ∀ o : ConfOption, P (goLower o.name)) :
    ∀ (l : Options) (acc : List (String × List String)),
      (∀ g ∈ acc, P g.1) → ∀ g ∈ l.foldl gvStep acc, P g.1 := by
  intro l
  induction l with
  | nil => intro acc hacc; simpa using hacc
  | cons o rest ih =>
    intro acc hacc
    rw [List.foldl_cons]
    apply ih
    intro g hgm
    unfold gvStep at hgm
    cases hget : aget acc (goLower o.name) with
    | none =>
      rw [hget] at hgm
      rcases List.mem_append.mp hgm with h | h
      · exact hacc g h
      · simp at h
        rw [h]
        exact hP o
    | some vs =>
      rw [hget] at hgm
      rcases mem_aset _ _ _ _ hgm with h | h
      · exact hacc g h
      · rw [h]
        exact hP o

theorem gvGroups_key_lower (options : Options) :
    ∀ g ∈ gvGroups options, goLower g.1 = g.1 :=
  gvGroups_inv (fun k => goLower k = k)
    (fun o => goLower_idem o.name) options [] (by simp)

theorem gvGroups_keys_nodup (options : Options) :
    ((gvGroups options).map Prod.fst).Nodup := by
  suffices h : ∀ (l : Options) (acc : List (String × List String)),
      (acc.map Prod.fst).Nodup → ((l.foldl gvStep acc).map Prod.fst).Nodup from
    h options [] (by simp)
  intro l
  induction l with
  | nil => intro acc hacc; simpa using hacc
  | cons o rest ih =>
    intro acc hacc
    rw [List.foldl_cons]
    apply ih
    unfold gvStep
    cases hget : aget acc (goLower o.name) with
    | none =>
      rw [List.map_append]
      simp only [List.map_cons, List.map_nil]
      rw [List.nodup_append]
      refine ⟨hacc, List.nodup_singleton _, ?_⟩
      intro a ha hb
      simp at hb
      rw [hb] at ha
      exact (aget_eq_none_iff acc (goLower o.name)).mp hget ha
    | some vs =>
      rw [keys_aset_of_mem acc (goLower o.name) _
        (aget_some_mem_keys acc (goLower o.name) (by rw [hget]; simp))]
      exact hacc

theorem validateGroupsGo_ok_iff (lm : List (String × OptionSpec))
    (gs : List (String × List String))
    (hkeys : ∀ g ∈ gs, goLower g.1 = g.1) (hnd : (gs.map Prod.fst).Nodup) :
    (∃ lm', validateGroupsGo lm gs = .ok lm') ↔
      ∀ g ∈ gs, ∃ spec, aget lm (goLower g.1) = some spec ∧
        ValidateOption g.2 spec = none := by
  induction gs generalizing lm with
  | nil => simp [validateGroupsGo]
  | cons g rest ih =>
    obtain ⟨n, values⟩ := g
    rw [List.map_cons, List.nodup_cons] at hnd
    obtain ⟨hnin, hndr⟩ := hnd
    cases hget : aget lm (goLower n) with
    | none =>
      constructor
      · rintro ⟨lm', hlm⟩
        unfold validateGroupsGo at hlm
        rw [hget] at hlm
        cases hlm
      · intro h
        obtain ⟨spec, hspec, _⟩ := h (n, values) (List.mem_cons_self _ _)
        have hspec2 : aget lm (goLower n) = some spec := hspec
        rw [hget] at hspec2
        cases hspec2
    | some spec =>
      cases hvo : ValidateOption values spec with
      | some e =>
        have hrun : validateGroupsGo lm ((n, values) :: rest) =
            .error ⟨[spec.name], e⟩ := by
          simp [validateGroupsGo, hget, hvo]
        constructor
        · rintro ⟨lm', hlm⟩
          rw [hrun] at hlm
          cases hlm
        · intro h
          obtain ⟨spec', hspec', hvo'⟩ := h (n, values) (List.mem_cons_self _ _)
          have hspec2 : aget lm (goLower n) = some spec' := hspec'
          rw [hget] at hspec2
          injection hspec2 with he
          subst he
          have hvo2 : ValidateOption values spec = none := hvo'
          rw [hvo] at hvo2
          cases hvo2
      | none =>
        have hrun : validateGroupsGo lm ((n, values) :: rest) =
            validateGroupsGo (aerase lm n) rest := by
          simp [validateGroupsGo, hget, hvo]
        have hstep : ∀ lm', validateGroupsGo lm ((n, values) :: rest) = .ok lm' ↔
            validateGroupsGo (aerase lm n) rest = .ok lm' := by
          intro lm'
          rw [hrun]
        have heq : ∀ g ∈ rest, aget (aerase lm n) (goLower g.1) = aget lm (goLower g.1) := by
          intro g hgm
          apply aget_aerase_ne
          rw [hkeys g (List.mem_cons_of_mem _ hgm)]
          intro he
          apply hnin
          have h2 : g.1 ∈ List.map Prod.fst rest := List.mem_map_of_mem Prod.fst hgm
          rw [he] at h2
          exact h2
        have ihr := ih (aerase lm n)
          (fun g hgm => hkeys g (List.mem_cons_of_mem _ hgm)) hndr
        constructor
        · rintro ⟨lm', hlm⟩
          intro g hgm
          rcases List.mem_cons.mp hgm with h | h
          · rw [h]
            exact ⟨spec, hget, hvo⟩
          · obtain ⟨spec', hspec', hvo'⟩ := ihr.mp ⟨lm', (hstep lm').mp hlm⟩ g h
            exact ⟨spec', (heq g h) ▸ hspec', hvo'⟩
        · intro h
          obtain ⟨lm', hlm⟩ := ihr.mpr (fun g hgm => by
            obtain ⟨spec', hspec', hvo'⟩ := h g (List.mem_cons_of_mem _ hgm)
            exact ⟨spec', (heq g hgm).symm ▸ hspec', hvo'⟩)
          exact ⟨lm', (hstep lm').mpr hlm⟩

/-- The outcome ValidateOptions is forced to produce regardless of map
iteration order: every grouped option resolves and passes its per-option
validation, and no unconsumed spec is required. -/
def ValidGood (options : Options) (reg : OptionRegistry) : Prop :=
  (∀ g ∈ gvGroups options, ∃ spec, aget (buildLM reg.all) (goLower g.1) = some spec ∧
    ValidateOption g.2 spec = none) ∧
  ∀ kv ∈ remainingLM options reg, kv.2.required = false

/-- C4 (amended): whether ValidateOptions returns an error is deterministic
— for every pair of legal Go map iteration orders it succeeds exactly when
ValidGood holds — but which error is reported when several options fail is
order-dependent (see the counterexample). -/
theorem validateOptions_deterministic_outcome :
    ∀ (options : Options) (reg : OptionRegistry)
      (gOrd : List (String × List String)) (rOrd : List (String × OptionSpec)),
      gOrd.Perm (gvGroups options) → rOrd.Perm (remainingLM options reg) →
      (ValidateOptionsW reg gOrd rOrd = none ↔ ValidGood options reg) := by
  intro options reg gOrd rOrd hg hr
  have hkeys : ∀ g ∈ gOrd, goLower g.1 = g.1 :=
    fun g hgm => gvGroups_key_lower options g (hg.subset hgm)
  have hnd : (gOrd.map Prod.fst).Nodup :=
    ((hg.map Prod.fst).nodup_iff).mpr (gvGroups_keys_nodup options)
  have hiff := validateGroupsGo_ok_iff (buildLM reg.all) gOrd hkeys hnd
  have hmem : ∀ g, g ∈ gOrd ↔ g ∈ gvGroups options := fun g => hg.mem_iff
  unfold ValidateOptionsW
  cases hrun : validateGroupsGo (buildLM reg.all) gOrd with
  | error e =>
    simp only
    constructor
    · intro h; cases h
    · intro hgood
      exfalso
      obtain ⟨lm', hlm⟩ := hiff.mpr (fun g hgm => hgood.1 g ((hmem g).mp hgm))
      rw [hrun] at hlm
      cases hlm
  | ok lm' =>
    simp only
    have hgroups : ∀ g ∈ gvGroups options, ∃ spec,
        aget (buildLM reg.all) (goLower g.1) = some spec ∧
          ValidateOption g.2 spec = none :=
      fun g hgm => hiff.mp ⟨lm', hrun⟩ g ((hmem g).mpr hgm)
    constructor
    · intro hfind
      refine ⟨hgroups, ?_⟩
      intro kv hkv
      have hmemr : kv ∈ rOrd := hr.symm.subset hkv
      have hnone : rOrd.find? (fun kv => kv.2.required) = none :=
        Option.map_eq_none'.mp hfind
      have := List.find?_eq_none.mp hnone kv hmemr
      simpa using this
    · intro hgood
      have hnone : rOrd.find? (fun kv => kv.2.required) = none :=
        List.find?_eq_none.mpr (fun kv hkv => by simp [hgood.2 kv (hr.subset hkv)])
      rw [hnone]
      rfl

def c4Opts : Options := [⟨"A", "x"⟩, ⟨"B", "y"⟩]

def c4Reg : OptionRegistry :=
  SectionSpec.toRegistry [⟨"A", .intT, false, ""⟩, ⟨"B", .intT, false, ""⟩]

/-- C4 (counterexample): two legal runs of ValidateOptions on the same
input — the grouped options iterated in first-occurrence order versus in
reversed order — report errors about different option names, so the
outcome is not deterministic across runs as claimed. -/
theorem validateOptions_order_counterexample :
    ((gvGroups c4Opts).reverse).Perm (gvGroups c4Opts) ∧
    remainingLM c4Opts c4Reg = [] ∧
    ValidateOptionsW c4Reg (gvGroups c4Opts) [] = some ⟨["A"], .invalidNumber⟩ ∧
    ValidateOptionsW c4Reg ((gvGroups c4Opts).reverse) [] =
      some ⟨["B"], .invalidNumber⟩ ∧
    ValidateOptionsW c4Reg (gvGroups c4Opts) [] ≠
      ValidateOptionsW c4Reg ((gvGroups c4Opts).reverse) [] := by
  refine ⟨by decide, by decide, by decide, by decide, by decide⟩

/-- Witness for C4's amended theorem at a concrete run. -/
theorem validateOptions_deterministic_outcome_witness :
    ValidateOptionsW c4Reg (gvGroups c4Opts) [] = none ↔ ValidGood c4Opts c4Reg :=
  validateOptions_deterministic_outcome c4Opts c4Reg (gvGroups c4Opts) []
    (List.Perm.refl _) (by rw [show remainingLM c4Opts c4Reg = [] from by decide])

/-! ### Round trip of the structural mapping engine (C3) -/

theorem digitVal_digitChar (d : Nat) (h : d < 10) :
    digitVal (digitChar d) = some d := by
  interval_cases d <;> decide

theorem natCharsAux_fuel (n : Nat) :
    ∀ f1 f2, n < f1 → n < f2 → natCharsAux f1 n = natCharsAux f2 n := by
  induction n using Nat.strong_induction_on with
  | _ n ih =>
    intro f1 f2 h1 h2
    cases f1 with
    | zero => omega
    | succ g1 =>
      cases f2 with
      | zero => omega
      | succ g2 =>
        unfold natCharsAux
        by_cases h : n < 10
        · rw [if_pos h, if_pos h]
        · rw [if_neg h, if_neg h,
            ih (n / 10) (Nat.div_lt_self (by omega) (by omega)) g1 g2
              (by omega) (by omega)]

theorem natChars_lt10 (n : Nat) (h : n < 10) : natChars n = [digitChar n] := by
  unfold natChars natCharsAux
  rw [if_pos h]

theorem natChars_ge10 (n : Nat) (h : ¬n < 10) :
    natChars n = natChars (n / 10) ++ [digitChar (n % 10)] := by
  conv_lhs => unfold natChars natCharsAux
  rw [if_neg h,
    natCharsAux_fuel (n / 10) n (n / 10 + 1) (by omega) (by omega)]
  rfl

theorem natChars_ne_nil (n : Nat) : natChars n ≠ [] := by
  by_cases h : n < 10
  · rw [natChars_lt10 n h]; simp
  · rw [natChars_ge10 n h]; simp

theorem natChars_cons_digit (n : Nat) (hn : 1 ≤ n) :
    ∃ d t, natChars n = digitChar d :: t ∧ 1 ≤ d ∧ d < 10 := by
  induction n using Nat.strong_induction_on with
  | _ n ih =>
    by_cases h : n < 10
    · exact ⟨n, [], natChars_lt10 n h, hn, h⟩
    · obtain ⟨d, t, hnat, hd1, hd9⟩ := ih (n / 10)
        (Nat.div_lt_self (by omega) (by omega)) (by omega)
      refine ⟨d, t ++ [digitChar (n % 10)], ?_, hd1, hd9⟩
      rw [natChars_ge10 n h, hnat]
      rfl

theorem parseDigitsAux_append (b : Nat) (l1 l2 : List Char) :
    ∀ acc, parseDigitsAux b acc (l1 ++ l2) =
      (parseDigitsAux b acc l1).bind (fun a => parseDigitsAux b a l2) := by
  induction l1 with
  | nil => intro acc; rfl
  | cons c cs ih =>
    intro acc
    rw [List.cons_append]
    cases hc : digitVal c with
    | none => simp [parseDigitsAux, hc]
    | some d =>
      by_cases hd : d < b
      · simp [parseDigitsAux, hc, hd, ih]
      · simp [parseDigitsAux, hc, hd]

theorem parseDigitsAux_natChars (n : Nat) :
    ∀ acc, parseDigitsAux 10 acc (natChars n) =
      some (acc * 10 ^ (natChars n).length + n) := by
  induction n using Nat.strong_induction_on with
  | _ n ih =>
    intro acc
    by_cases h : n < 10
    · rw [natChars_lt10 n h]
      simp [parseDigitsAux, digitVal_digitChar n h, h]
    · rw [natChars_ge10 n h, parseDigitsAux_append,
        ih (n / 10) (Nat.div_lt_self (by omega) (by omega)) acc]
      have hm : n % 10 < 10 := Nat.mod_lt n (by omega)
      simp [parseDigitsAux, digitVal_digitChar (n % 10) hm, hm]
      have hdm := Nat.div_add_mod n 10
      have harith : ∀ A : Nat, (A + n / 10) * 10 + n % 10 = A * 10 + n := by
        intro A
        omega
      rw [pow_succ, ← Nat.mul_assoc]
      rw [harith (acc * 10 ^ (natChars (n / 10)).length)]

theorem parseDigits_natChars (n : Nat) : parseDigits 10 (natChars n) = some n := by
  unfold parseDigits
  rw [if_neg (by simpa using natChars_ne_nil n), parseDigitsAux_natChars n 0]
  simp

theorem splitSign_digit (d : Nat) (t : List Char) (h1 : 1 ≤ d) (h9 : d < 10) :
    splitSign (digitChar d :: t) = (false, digitChar d :: t) := by
  interval_cases d <;> rfl

theorem stripBase0_digit (d : Nat) (t : List Char) (h1 : 1 ≤ d) (h9 : d < 10) :
    stripBase0 (digitChar d :: t) = (10, digitChar d :: t) := by
  interval_cases d <;> rfl

theorem int64Min_eq : int64Min = -9223372036854775808 := by decide

theorem int64Max_eq : int64Max = 9223372036854775807 := by decide

theorem composeParsed_pos (m : Nat) (h : (m : Int) ≤ int64Max) :
    composeParsed false (some m) = some (m : Int) := by
  have h0 : (0 : Int) ≤ (m : Int) := Int.natCast_nonneg m
  simp only [composeParsed]
  rw [if_neg]
  · rfl
  · push_neg
    rw [int64Min_eq, int64Max_eq] at *
    constructor <;> simp <;> omega

theorem composeParsed_neg (m : Nat) (h : int64Min ≤ -(m : Int)) :
    composeParsed true (some m) = some (-(m : Int)) := by
  have h0 : (0 : Int) ≤ (m : Int) := Int.natCast_nonneg m
  simp only [composeParsed]
  rw [if_neg]
  · rfl
  · push_neg
    rw [int64Min_eq, int64Max_eq] at *
    constructor <;> simp <;> omega

theorem parseGoIntChars_natChars (n : Nat) (h : (n : Int) ≤ int64Max) :
    parseGoIntChars (natChars n) = some (n : Int) := by
  rcases Nat.eq_zero_or_pos n with rfl | hpos
  · decide
  · obtain ⟨d, t, hnat, hd1, hd9⟩ := natChars_cons_digit n hpos
    unfold parseGoIntChars
    rw [hnat, splitSign_digit d t hd1 hd9]
    simp only
    rw [stripBase0_digit d t hd1 hd9]
    simp only
    rw [← hnat, parseDigits_natChars n]
    exact composeParsed_pos n h

/-- fmt's %d rendering of an int64 parses back to the same value with
strconv.ParseInt. -/
theorem parseGoInt_goFormatInt (i : Int) (h1 : int64Min ≤ i) (h2 : i ≤ int64Max) :
    parseGoInt (goFormatInt i) = some i := by
  unfold parseGoInt goFormatInt
  by_cases hneg : i < 0
  · rw [if_pos hneg]
    show parseGoIntChars ('-' :: natChars i.natAbs) = some i
    have hm : 1 ≤ i.natAbs := by omega
    obtain ⟨d, t, hnat, hd1, hd9⟩ := natChars_cons_digit _ hm
    unfold parseGoIntChars
    rw [show splitSign ('-' :: natChars i.natAbs) = (true, natChars i.natAbs) from rfl]
    simp only
    rw [hnat, stripBase0_digit d t hd1 hd9]
    simp only
    rw [← hnat, parseDigits_natChars]
    have habs : -((i.natAbs : Nat) : Int) = i := by omega
    rw [composeParsed_neg i.natAbs (by omega), habs]
  · rw [if_neg hneg]
    show parseGoIntChars (natChars i.natAbs) = some i
    have habs : ((i.natAbs : Nat) : Int) = i := by omega
    rw [parseGoIntChars_natChars i.natAbs (by omega), habs]

/-- The Go receiver kind matches the option type (same scalar kind, or
slice kind against slice type). -/
def valueMatches : GoValue → OptionType → Prop
  | .vBool _, .boolT => True
  | .vInt _, .intT => True
  | .vString _, .stringT => True
  | .vIntSlice _, .intSliceT => True
  | .vStringSlice _, .stringSliceT => True
  | _, _ => False

/-- Scalar values must be non-zero to survive sparse encoding (see the
counterexample); slices are unrestricted. -/
def scalarNonZero : GoValue → Prop
  | .vBool b => b = true
  | .vInt n => n ≠ 0
  | .vString s => s ≠ ""
  | _ => True

/-- Go int values live in the int64 range. -/
def intsIn64 : GoValue → Prop
  | .vInt n => int64Min ≤ n ∧ n ≤ int64Max
  | .vIntSlice l => ∀ n ∈ l, int64Min ≤ n ∧ n ≤ int64Max
  | _ => True

theorem encode_vIntSlice (l : List Int) (name : String) :
    encodeBasic (.vIntSlice l) name false =
      l.map (fun n => (⟨name, goFormatInt n⟩ : ConfOption)) := by
  unfold encodeBasic
  cases l <;> simp [GoValue.isZero]

theorem encode_vStringSlice (l : List String) (name : String) :
    encodeBasic (.vStringSlice l) name false =
      l.map (fun v => (⟨name, v⟩ : ConfOption)) := by
  unfold encodeBasic
  cases l <;> simp [GoValue.isZero]

theorem decodeIntList_map (l : List Int)
    (h : ∀ n ∈ l, int64Min ≤ n ∧ n ≤ int64Max) :
    decodeIntList .intSliceT (l.map goFormatInt) [] = .ok l := by
  induction l with
  | nil => rfl
  | cons a r ih =>
    simp only [List.map_cons]
    unfold decodeIntList
    rw [if_pos (Or.inr rfl)]
    simp only [parseGoInt_goFormatInt a (h a (by simp)).1 (h a (by simp)).2]
    rw [show List.drop 1 ([] : List Int) = [] from rfl,
      ih (fun n hn => h n (by simp [hn]))]
    rfl

theorem decodeStringList_map (l : List String) :
    decodeStringList .stringSliceT l [] = .ok l := by
  induction l with
  | nil => rfl
  | cons a r ih =>
    unfold decodeStringList
    rw [if_pos (Or.inr rfl),
      show List.drop 1 ([] : List String) = [] from rfl, ih]
    rfl

/-- C3 (amended): for bool, int and string values and int/string slices,
with non-zero scalars and int64-range ints, every encoded text passes the
type's validator and decoding the encoded texts at the same option type
restores the original value.  Zero scalars and float values are excluded:
sparse encoding skips the former entirely, and the %f rendering of the
latter truncates to six decimals — both break the round trip on
validator-passing values (see the counterexample). -/
theorem encode_decode_roundtrip :
    ∀ (v : GoValue) (t : OptionType) (name : String),
      valueMatches v t → scalarNonZero v → intsIn64 v →
      (∀ s ∈ (EncodeToOptions name v).map (·.value), checkValue s t = none) ∧
      DecodeValues ((EncodeToOptions name v).map (·.value)) t v.zeroLike = .ok v := by
  intro v t name hm hz hr
  cases v with
  | vBool b =>
    cases t <;> simp [valueMatches] at hm
    have hb : b = true := hz
    subst hb
    constructor
    · show ∀ s ∈ ["true"], checkValue s .boolT = none
      decide
    · show DecodeValues ["true"] .boolT (GoValue.vBool false) = .ok (.vBool true)
      rfl
  | vInt n =>
    cases t <;> simp [valueMatches] at hm
    obtain ⟨hlo, hhi⟩ := hr
    have hz' : n ≠ 0 := hz
    have henc : (EncodeToOptions name (.vInt n)).map (·.value) = [goFormatInt n] := by
      simp [EncodeToOptions, encodeBasic, GoValue.isZero, hz']
    rw [henc]
    constructor
    · intro s hs
      rw [List.mem_singleton.mp hs]
      simp [checkValue, parseGoInt_goFormatInt n hlo hhi]
    · simp [DecodeValues, decodeVal, OptionType.isSliceType,
        parseGoInt_goFormatInt n hlo hhi, GoValue.zeroLike]
  | vString s0 =>
    cases t <;> simp [valueMatches] at hm
    have hz' : s0 ≠ "" := hz
    have henc : (EncodeToOptions name (.vString s0)).map (·.value) = [s0] := by
      simp [EncodeToOptions, encodeBasic, GoValue.isZero, hz']
    rw [henc]
    constructor
    · intro s hs
      rw [List.mem_singleton.mp hs]
      rfl
    · simp [DecodeValues, decodeVal, OptionType.isSliceType, GoValue.zeroLike]
  | vFloat q =>
    cases t <;> simp [valueMatches] at hm
  | vFloatSlice l =>
    cases t <;> simp [valueMatches] at hm
  | vIntSlice l =>
    cases t <;> simp [valueMatches] at hm
    have hr' : ∀ n ∈ l, int64Min ≤ n ∧ n ≤ int64Max := hr
    have henc : (EncodeToOptions name (.vIntSlice l)).map (·.value) = l.map goFormatInt := by
      rw [EncodeToOptions, encode_vIntSlice]
      simp [List.map_map, Function.comp]
    rw [henc]
    constructor
    · intro s hs
      obtain ⟨n, hn, rfl⟩ := List.mem_map.mp hs
      simp [checkValue, parseGoInt_goFormatInt n (hr' n hn).1 (hr' n hn).2]
    · simp [DecodeValues, decodeVal, OptionType.isSliceType, GoValue.zeroLike,
        decodeIntList_map l hr', Except.map]
  | vStringSlice l =>
    cases t <;> simp [valueMatches] at hm
    have henc : (EncodeToOptions name (.vStringSlice l)).map (·.value) = l := by
      rw [EncodeToOptions, encode_vStringSlice]
      rw [List.map_map]
      exact List.map_id l
    rw [henc]
    constructor
    · intro s hs
      rfl
    · simp [DecodeValues, decodeVal, OptionType.isSliceType, GoValue.zeroLike,
        decodeStringList_map l, Except.map]

def c3Float : ℚ := mkRat 1234567 10000000

/-- C3 (counterexample): the round trip is not the identity on every
validator-passing value.  The zero bool false is skipped entirely by
sparse encoding, so it encodes to no options and decoding fails instead
of restoring it; and the float 0.1234567 is rendered by the six-decimal
%f formatting as "0.123457", which passes the float validator but decodes
to the different value 0.123457, both as a scalar and as a one-element
float slice. -/
theorem roundtrip_zero_and_float_counterexample :
    (EncodeToOptions "x" (.vBool false) = [] ∧
      DecodeValues ((EncodeToOptions "x" (.vBool false)).map (·.value)) .boolT
        (GoValue.vBool false).zeroLike = .error (.valueCount 0)) ∧
    ((EncodeToOptions "x" (.vFloat c3Float)).map (·.value) = ["0.123457"] ∧
      checkValue "0.123457" .floatT = none ∧
      DecodeValues ((EncodeToOptions "x" (.vFloat c3Float)).map (·.value)) .floatT
        (GoValue.vFloat c3Float).zeroLike = .ok (.vFloat (mkRat 123457 1000000)) ∧
      mkRat 123457 1000000 ≠ c3Float) ∧
    ((EncodeToOptions "x" (.vFloatSlice [c3Float])).map (·.value) = ["0.123457"] ∧
      DecodeValues ((EncodeToOptions "x" (.vFloatSlice [c3Float])).map (·.value))
        .floatSliceT (GoValue.vFloatSlice [c3Float]).zeroLike =
        .ok (.vFloatSlice [mkRat 123457 1000000]) ∧
      [mkRat 123457 1000000] ≠ [c3Float]) := by
  exact ⟨⟨rfl, rfl⟩, ⟨rfl, rfl, rfl, by decide⟩, ⟨rfl, rfl, by decide⟩⟩

/-- Witness for C3's amended round-trip theorem at a concrete int. -/
theorem encode_decode_roundtrip_witness :
    (∀ s ∈ (EncodeToOptions "x" (.vInt 5)).map (·.value), checkValue s .intT = none) ∧
    DecodeValues ((EncodeToOptions "x" (.vInt 5)).map (·.value)) .intT
      (GoValue.vInt 5).zeroLike = .ok (.vInt 5) :=
  encode_decode_roundtrip (.vInt 5) .intT "x" trivial
    (by norm_num : (5 : Int) ≠ 0)
    (by decide : int64Min ≤ (5 : Int) ∧ (5 : Int) ≤ int64Max)

/-! ### Frame property of ApplyDropIns (C9) -/

theorem aget_aset_self {α : Type} (m : List (String × α)) (k : String) (v : α) :
    aget (aset m k v) k = some v := by
  induction m with
  | nil => simp [aset, aget, List.find?_cons]
  | cons kv rest ih =>
    unfold aset
    by_cases hk : kv.1 = k
    · rw [if_pos (by simp [hk]), aget_cons, if_pos rfl]
    · rw [if_neg (by simp [hk]), aget_cons, if_neg hk]
      exact ih

theorem aget_aset_ne {α : Type} (m : List (String × α)) (k k' : String) (v : α)
    (h : k' ≠ k) : aget (aset m k v) k' = aget m k' := by
  induction m with
  | nil =>
    unfold aset
    rw [aget_cons, if_neg (fun he => h he.symm)]
  | cons kv rest ih =>
    unfold aset
    by_cases hk : kv.1 = k
    · rw [if_pos (by simp [hk]), aget_cons,
        if_neg (show ¬(k, v).1 = k' from fun he => h he.symm), aget_cons,
        if_neg (show ¬kv.1 = k' from fun he => h ((hk.symm.trans he).symm))]
    · rw [if_neg (by simp [hk]), aget_cons, aget_cons]
      by_cases hk' : kv.1 = k'
      · rw [if_pos hk', if_pos hk']
      · rw [if_neg hk', if_neg hk', ih]

theorem buildSLM_foldl_aget (l : List Section) :
    ∀ (m : Slm) (key : String),
      aget (l.foldl buildSLMStep m) key =
        match aget m key, l.filter (fun s => goLower s.name == key) with
        | none, [] => none
        | none, [s] => some (some s)
        | none, _ :: _ :: _ => some none
        | some v, [] => some v
        | some _, _ :: _ => some none := by
  induction l with
  | nil =>
    intro m key
    cases hm : aget m key <;> simp [hm]
  | cons sec rest ih =>
    intro m key
    rw [List.foldl_cons, List.filter_cons, ih (buildSLMStep m sec) key]
    by_cases hk : goLower sec.name = key
    · rw [if_pos (by simp [hk])]
      unfold buildSLMStep
      cases hget : aget m (goLower sec.name) with
      | none =>
        rw [hk] at hget
        rw [hk, aget_aset_self m key (some sec), hget]
        cases rest.filter (fun s => goLower s.name == key) <;> rfl
      | some v =>
        rw [hk] at hget
        rw [hk, aget_aset_self m key none, hget]
        cases rest.filter (fun s => goLower s.name == key) <;> rfl
    · rw [if_neg (by simp [hk])]
      unfold buildSLMStep
      cases hget : aget m (goLower sec.name) with
      | none => rw [aget_aset_ne m (goLower sec.name) key (some sec) (fun he => hk he.symm)]
      | some v => rw [aget_aset_ne m (goLower sec.name) key none (fun he => hk he.symm)]

theorem buildSLM_dup (sections : List Section) (key : String)
    (h : 1 < (sections.filter (fun s => goLower s.name == key)).length) :
    aget (buildSLM sections) key = some none := by
  unfold buildSLM
  rw [buildSLM_foldl_aget sections [] key,
    show aget ([] : Slm) key = none from rfl]
  rcases hf : sections.filter (fun s => goLower s.name == key) with _ | ⟨a, _ | ⟨b, r⟩⟩
  · rw [hf] at h; simp at h
  · rw [hf] at h; simp at h
  · rw [hf]

theorem buildSLM_uniq (sections : List Section) (key : String) (s : Section)
    (h : sections.filter (fun s => goLower s.name == key) = [s]) :
    aget (buildSLM sections) key = some (some s) := by
  unfold buildSLM
  rw [buildSLM_foldl_aget sections [] key,
    show aget ([] : Slm) key = none from rfl, h]

theorem mergeGroups_none_ok (reg : OptionRegistry)
    (groups : List (String × Options)) (s' : Option Section)
    (h : mergeGroups reg none groups = .ok s') : s' = none := by
  cases groups with
  | nil =>
    unfold mergeGroups at h
    injection h with h2
    exact h2.symm
  | cons g rest =>
    obtain ⟨optName, opts⟩ := g
    cases hopt : reg.getOption (goLower optName) with
    | none => exact absurd h (by simp [mergeGroups, hopt])
    | some spec =>
      by_cases hsl : spec.type.isSliceType = true
      · cases opts with
        | nil => exact absurd h (by simp [mergeGroups, hopt, hsl])
        | cons o0 orest =>
          by_cases hv : o0.value = ""
          · exact absurd h (by simp [mergeGroups, hopt, hsl, hv])
          · exact absurd h (by simp [mergeGroups, hopt, hsl, hv])
      · have hslf : spec.type.isSliceType = false := by simpa using hsl
        exact absurd h (by simp [mergeGroups, hopt, hslf])

theorem mergeSections_none_ok (optReg : Option OptionRegistry)
    (order : List (String × Options)) (s' : Option Section)
    (h : mergeSections optReg none order = .ok s') : s' = none := by
  cases optReg with
  | none => cases h
  | some reg => exact mergeGroups_none_ok reg order s' h

theorem applyDropInSecs_preserve (secReg : SectionRegistry) :
    ∀ (secs : List Section) (slm : Slm) (orders : List (List (String × Options)))
      (key : String) (out : Slm × List (List (String × Options))),
      applyDropInSecs secReg slm orders secs = .ok out →
      (∀ ds ∈ secs, goLower ds.name ≠ key) →
      aget out.1 key = aget slm key := by
  intro secs
  induction secs with
  | nil =>
    intro slm orders key out h _
    injection h with h2
    rw [← h2]
  | cons dsec rest ih =>
    intro slm orders key out h hne
    cases hget : aget slm (goLower dsec.name) with
    | none => exact absurd h (by simp [applyDropInSecs, hget])
    | some s =>
      cases hreg : secReg.optionsForSection (goLower dsec.name) with
      | none => exact absurd h (by simp [applyDropInSecs, hget, hreg])
      | some oreg =>
        cases oreg with
        | none => exact absurd h (by simp [applyDropInSecs, hget, hreg])
        | some reg =>
          cases hmerge : mergeSections (some reg) s
              (popOrder orders (groupByName dsec.options)).1 with
          | panicked => exact absurd h (by simp [applyDropInSecs, hget, hreg, hmerge])
          | err e => exact absurd h (by simp [applyDropInSecs, hget, hreg, hmerge])
          | ok s' =>
            have h2 : applyDropInSecs secReg (aset slm (goLower dsec.name) s')
                (popOrder orders (groupByName dsec.options)).2 rest = .ok out := by
              simpa [applyDropInSecs, hget, hreg, hmerge] using h
            rw [ih _ _ key out h2 (fun x hx => hne x (List.mem_cons_of_mem _ hx))]
            exact aget_aset_ne slm (goLower dsec.name) key s'
              (Ne.symm (hne dsec (List.mem_cons_self _ _)))

theorem applyDropInSecs_keep_none (secReg : SectionRegistry) :
    ∀ (secs : List Section) (slm : Slm) (orders : List (List (String × Options)))
      (key : String) (out : Slm × List (List (String × Options))),
      applyDropInSecs secReg slm orders secs = .ok out →
      aget slm key = some none →
      aget out.1 key = some none := by
  intro secs
  induction secs with
  | nil =>
    intro slm orders key out h hkey
    injection h with h2
    rw [← h2]
    exact hkey
  | cons dsec rest ih =>
    intro slm orders key out h hkey
    cases hget : aget slm (goLower dsec.name) with
    | none => exact absurd h (by simp [applyDropInSecs, hget])
    | some s =>
      cases hreg : secReg.optionsForSection (goLower dsec.name) with
      | none => exact absurd h (by simp [applyDropInSecs, hget, hreg])
      | some oreg =>
        cases oreg with
        | none => exact absurd h (by simp [applyDropInSecs, hget, hreg])
        | some reg =>
          cases hmerge : mergeSections (some reg) s
              (popOrder orders (groupByName dsec.options)).1 with
          | panicked => exact absurd h (by simp [applyDropInSecs, hget, hreg, hmerge])
          | err e => exact absurd h (by simp [applyDropInSecs, hget, hreg, hmerge])
          | ok s' =>
            have h2 : applyDropInSecs secReg (aset slm (goLower dsec.name) s')
                (popOrder orders (groupByName dsec.options)).2 rest = .ok out := by
              simpa [applyDropInSecs, hget, hreg, hmerge] using h
            apply ih _ _ key out h2
            by_cases hk : goLower dsec.name = key
            · rw [hk] at hget
              rw [hget] at hkey
              injection hkey with hs
              rw [hs] at hmerge
              rw [hk, aget_aset_self slm key s',
                mergeSections_none_ok _ _ _ hmerge]
            · rw [aget_aset_ne slm (goLower dsec.name) key s' (fun he => hk he.symm)]
              exact hkey

theorem applyDropInsAux_preserve (secReg : SectionRegistry) :
    ∀ (dropins : List File) (slm : Slm) (orders : List (List (String × Options)))
      (key : String) (out : Slm),
      applyDropInsAux secReg slm orders dropins = .ok out →
      (∀ d ∈ dropins, ∀ ds ∈ d.sections, goLower ds.name ≠ key) →
      aget out key = aget slm key := by
  intro dropins
  induction dropins with
  | nil =>
    intro slm orders key out h _
    injection h with h2
    rw [← h2]
  | cons d rest ih =>
    intro slm orders key out h hne
    cases hsec : applyDropInSecs secReg slm orders d.sections with
    | panicked => exact absurd h (by simp [applyDropInsAux, hsec])
    | err e => exact absurd h (by simp [applyDropInsAux, hsec])
    | ok p =>
      obtain ⟨slm2, orders2⟩ := p
      have h2 : applyDropInsAux secReg slm2 orders2 rest = .ok out := by
        simpa [applyDropInsAux, hsec] using h
      rw [ih slm2 orders2 key out h2 (fun x hx => hne x (List.mem_cons_of_mem _ hx))]
      exact applyDropInSecs_preserve secReg d.sections slm orders key
        ⟨slm2, orders2⟩ hsec (hne d (List.mem_cons_self _ _))

theorem applyDropInsAux_keep_none (secReg : SectionRegistry) :
    ∀ (dropins : List File) (slm : Slm) (orders : List (List (String × Options)))
      (key : String) (out : Slm),
      applyDropInsAux secReg slm orders dropins = .ok out →
      aget slm key = some none →
      aget out key = some none := by
  intro dropins
  induction dropins with
  | nil =>
    intro slm orders key out h hkey
    injection h with h2
    rw [← h2]
    exact hkey
  | cons d rest ih =>
    intro slm orders key out h hkey
    cases hsec : applyDropInSecs secReg slm orders d.sections with
    | panicked => exact absurd h (by simp [applyDropInsAux, hsec])
    | err e => exact absurd h (by simp [applyDropInsAux, hsec])
    | ok p =>
      obtain ⟨slm2, orders2⟩ := p
      have h2 : applyDropInsAux secReg slm2 orders2 rest = .ok out := by
        simpa [applyDropInsAux, hsec] using h
      exact ih slm2 orders2 key out h2
        (applyDropInSecs_keep_none secReg d.sections slm orders key
          ⟨slm2, orders2⟩ hsec hkey)

/-- C9: when ApplyDropIns succeeds, every base section whose lowercased
name is targeted by no drop-in is left exactly unchanged at its position,
and so is every section whose name occurs more than once in the base file;
the section count never changes. -/
theorem applyDropIns_frame :
    ∀ (orders : List (List (String × Options))) (t : File) (dropins : List File)
      (secReg : SectionRegistry) (res : File),
      ApplyDropIns orders t dropins secReg = .ok res →
      res.sections.length = t.sections.length ∧
      ∀ (i : Nat) (sec : Section), t.sections.get? i = some sec →
        ((∀ d ∈ dropins, ∀ ds ∈ d.sections, goLower ds.name ≠ goLower sec.name) ∨
          1 < (t.sections.countP (fun s => goLower s.name == goLower sec.name))) →
        res.sections.get? i = some sec := by
  intro orders t dropins secReg res h
  unfold ApplyDropIns at h
  cases hrun : applyDropInsAux secReg (buildSLM t.sections) orders dropins with
  | panicked => rw [hrun] at h; cases h
  | err e => rw [hrun] at h; cases h
  | ok slm =>
    rw [hrun] at h
    injection h with h2
    rw [← h2]
    constructor
    · simp
    · intro i sec hget hcond
      rw [List.get?_map, hget]
      have hres : (match aget slm (goLower sec.name) with
          | some (some s') => s'
          | _ => sec) = sec := by
        rcases hcond with huntarget | hdup
        · rw [applyDropInsAux_preserve secReg dropins _ orders (goLower sec.name)
            slm hrun huntarget]
          have hmem : sec ∈ t.sections.filter
              (fun s => goLower s.name == goLower sec.name) :=
            List.mem_filter.mpr ⟨List.get?_mem hget, by simp⟩
          rcases hf : t.sections.filter
              (fun s => goLower s.name == goLower sec.name) with _ | ⟨a, _ | ⟨b, r⟩⟩
          · rw [hf] at hmem; cases hmem
          · rw [hf] at hmem
            rw [buildSLM_uniq t.sections (goLower sec.name) a hf]
            simp at hmem
            rw [hmem]
          · rw [buildSLM_dup t.sections (goLower sec.name) (by rw [hf]; simp)]
        · have hcount : 1 < (t.sections.filter
              (fun s => goLower s.name == goLower sec.name)).length := by
            rw [← List.countP_eq_length_filter]
            exact hdup
          rw [applyDropInsAux_keep_none secReg dropins _ orders (goLower sec.name)
            slm hrun (buildSLM_dup t.sections (goLower sec.name) hcount)]
      exact congrArg some hres

def c9Base : File := ⟨"", [⟨"A", [⟨"X", "1"⟩]⟩, ⟨"B", [⟨"Y", "2"⟩]⟩]⟩

def c9Drop : File := ⟨"", [⟨"A", [⟨"X", "3"⟩]⟩]⟩

def c9Reg : SectionRegistry :=
  FileSpec.toSectionRegistry
    [("a", some (SectionSpec.toRegistry [⟨"X", .stringT, false, ""⟩])),
     ("b", some (SectionSpec.toRegistry [⟨"Y", .stringT, false, ""⟩]))]

def c9Res : File := ⟨"", [⟨"A", [⟨"X", "3"⟩]⟩, ⟨"B", [⟨"Y", "2"⟩]⟩]⟩

/-- Witness for C9 at a merge that rewrites section A but not B. -/
theorem applyDropIns_frame_witness :
    ApplyDropIns [] c9Base [c9Drop] c9Reg = .ok c9Res ∧
    c9Res.sections.length = c9Base.sections.length ∧
    c9Res.sections.get? 1 = some ⟨"B", [⟨"Y", "2"⟩]⟩ :=
  ⟨by decide,
   (applyDropIns_frame [] c9Base [c9Drop] c9Reg c9Res (by decide)).1,
   (applyDropIns_frame [] c9Base [c9Drop] c9Reg c9Res (by decide)).2 1
     ⟨"B", [⟨"Y", "2"⟩]⟩ (by decide) (Or.inl (by decide))⟩

/-! ### Required sections and repeated-section decoding (C7) -/

theorem decodeEach_length {α β : Type} (g : α → Except DErr β) :
    ∀ (l : List α) (r : List β), decodeEach g l = .ok r → r.length = l.length := by
  intro l
  induction l with
  | nil =>
    intro r h
    injection h with h2
    rw [← h2]
    rfl
  | cons a as ih =>
    intro r h
    cases hg : g a with
    | error e => exact absurd h (by simp [decodeEach, hg])
    | ok b =>
      cases hr : decodeEach g as with
      | error e => exact absurd h (by simp [decodeEach, hg, hr])
      | ok bs =>
        have h2 : r = b :: bs := by
          have h3 := h
          simp [decodeEach, hg, hr] at h3
          exact h3.symm
        rw [h2]
        simp [ih bs hr]

theorem decodeEach_ok_of_forall {α β : Type} (g : α → Except DErr β) :
    ∀ (l : List α), (∀ a ∈ l, ∃ b, g a = .ok b) →
      ∃ bs, decodeEach g l = .ok bs := by
  intro l
  induction l with
  | nil => intro _; exact ⟨[], rfl⟩
  | cons a as ih =>
    intro hall
    obtain ⟨b, hb⟩ := hall a (List.mem_cons_self _ _)
    obtain ⟨bs, hbs⟩ := ih (fun x hx => hall x (List.mem_cons_of_mem _ hx))
    exact ⟨b :: bs, by simp [decodeEach, hb, hbs]⟩

theorem decodeEach_append_error {α β : Type} (g : α → Except DErr β) :
    ∀ (l1 : List α) (pvs : List β) (a : α) (l2 : List α) (e : DErr),
      decodeEach g l1 = .ok pvs → g a = .error e →
      decodeEach g (l1 ++ a :: l2) = .error e := by
  intro l1
  induction l1 with
  | nil =>
    intro pvs a l2 e _ hg
    simp [decodeEach, hg]
  | cons x xs ih =>
    intro pvs a l2 e h hg
    cases hx : g x with
    | error e2 => exact absurd h (by simp [decodeEach, hx])
    | ok b =>
      cases hxs : decodeEach g xs with
      | error e2 => exact absurd h (by simp [decodeEach, hx, hxs])
      | ok bs =>
        rw [List.cons_append]
        simp [decodeEach, hx, ih bs a l2 e hxs hg]

theorem decodeEach_append_ok {α β : Type} (g : α → Except DErr β) :
    ∀ (l1 : List α) (pvs : List β) (a : α) (b : β) (l2 : List α) (vs : List β),
      decodeEach g l1 = .ok pvs → g a = .ok b → decodeEach g l2 = .ok vs →
      decodeEach g (l1 ++ a :: l2) = .ok (pvs ++ b :: vs) := by
  intro l1
  induction l1 with
  | nil =>
    intro pvs a b l2 vs h hg hl2
    injection h with h2
    rw [← h2]
    simp [decodeEach, hg, hl2]
  | cons x xs ih =>
    intro pvs a b l2 vs h hg hl2
    cases hx : g x with
    | error e2 => exact absurd h (by simp [decodeEach, hx])
    | ok c =>
      cases hxs : decodeEach g xs with
      | error e2 => exact absurd h (by simp [decodeEach, hx, hxs])
      | ok cs =>
        have h2 : pvs = c :: cs := by
          have h3 := h
          simp [decodeEach, hx, hxs] at h3
          exact h3.symm
        rw [h2, List.cons_append, List.cons_append]
        simp [decodeEach, hx, ih cs a b l2 vs hxs hg hl2]

/-- C7: with a struct field tagged required whose section spec exists, and
all earlier fields decoding cleanly, a file with no matching section makes
DecodeFileToStruct fail with the missing-section error; when matching
sections exist and the field is a slice, the field decodes to exactly one
record per matching section occurrence, in document order, and the whole
struct decode succeeds whenever the remaining fields do. -/
theorem decodeFileToStruct_required_section :
    ∀ (file : File) (spec : FileSpecD) (pre post : List SecField) (f : SecField)
      (name : String) (secSpec : SectionSpec),
      sectionTagInfo f.goName f.tag = some (name, true) →
      findSection spec name = some secSpec →
      (∀ g ∈ pre, ∃ v, decodeSecField file spec g = Except.ok v) →
      (File.getAll file name = [] →
        DecodeFileToStruct file spec (pre ++ f :: post) =
          Except.error (DErr.missingSection name)) ∧
      (∀ rs : List RecordVal, f.isSlice = true →
        decodeEach (fun s => decodeSectionToStruct s secSpec f.record (zeroRecord f.record))
            (File.getAll file name) = Except.ok rs →
        File.getAll file name ≠ [] →
        decodeSecField file spec f = Except.ok (FieldVal.many rs) ∧
        rs.length = (File.getAll file name).length ∧
        (∀ vs : StructVal, decodeEach (decodeSecField file spec) post = Except.ok vs →
          ∃ pvs : StructVal, decodeEach (decodeSecField file spec) pre = Except.ok pvs ∧
            DecodeFileToStruct file spec (pre ++ f :: post) =
              Except.ok (pvs ++ FieldVal.many rs :: vs))) := by
  intro file spec pre post f name secSpec htag hfind hpre
  constructor
  · intro hempty
    have hf : decodeSecField file spec f = .error (.missingSection name) := by
      simp [decodeSecField, htag, hfind, hempty]
    obtain ⟨pvs, hpvs⟩ := decodeEach_ok_of_forall (decodeSecField file spec) pre hpre
    exact decodeEach_append_error _ pre pvs f post _ hpvs hf
  · intro rs hslice hdec hne
    have hlen0 : ¬(File.getAll file name).length = 0 := by
      intro h0
      exact hne (List.length_eq_zero.mp h0)
    have hf : decodeSecField file spec f = .ok (.many rs) := by
      simp [decodeSecField, htag, hfind, decodeSectionsGo, hslice, hlen0, hdec,
        Except.map]
    refine ⟨hf, decodeEach_length _ _ rs hdec, ?_⟩
    intro vs hpost
    obtain ⟨pvs, hpvs⟩ := decodeEach_ok_of_forall (decodeSecField file spec) pre hpre
    exact ⟨pvs, hpvs,
      decodeEach_append_ok _ pre pvs f (FieldVal.many rs) post vs hpvs hf hpost⟩

def c7OptSpec : SectionSpec := [⟨"Name", .stringT, false, ""⟩]

def c7Spec : FileSpecD := [("svc", c7OptSpec)]

def c7Field : SecField := ⟨"Svc", some "svc,required", true, [⟨"Name", none, .kString⟩]⟩

def c7Empty : File := ⟨"", [⟨"Other", [⟨"X", "1"⟩]⟩]⟩

def c7File : File := ⟨"", [⟨"Svc", [⟨"Name", "a"⟩]⟩, ⟨"Svc", [⟨"Name", "b"⟩]⟩]⟩

/-- Witness for C7: the required slice field "svc" makes decoding fail on a
file without Svc sections and collects both Svc sections in order on a file
with two of them. -/
theorem decodeFileToStruct_required_section_witness :
    DecodeFileToStruct c7Empty c7Spec [c7Field] =
      Except.error (DErr.missingSection "svc") ∧
    DecodeFileToStruct c7File c7Spec [c7Field] =
      Except.ok [FieldVal.many [[GoValue.vString "a"], [GoValue.vString "b"]]] := by
  constructor
  · exact (decodeFileToStruct_required_section c7Empty c7Spec [] [] c7Field
      "svc" c7OptSpec (by decide) (by decide) (by intro g hg; cases hg)).1 (by decide)
  · obtain ⟨pvs, hpvs, hres⟩ :=
      ((decodeFileToStruct_required_section c7File c7Spec [] [] c7Field
        "svc" c7OptSpec (by decide) (by decide) (by intro g hg; cases hg)).2
        [[GoValue.vString "a"], [GoValue.vString "b"]]
        (by decide) (by rfl) (by decide)).2.2
        [] (by rfl)
    have hp : pvs = [] := by
      injection hpvs with h2
      exact h2.symm
    rw [hp] at hres
    exact hres

end SystemConf
